import Mathlib

/-!
Verification of the client-side core of the cryptoscope dashboard.

The repository is a Next.js UI; the parts with algorithmic content are
embedded here as pure Lean functions:

* the entry-based tree builder (`buildTree` in `src/app/page.tsx`,
  `src/app/analyzer/page.tsx`, and `buildTreeFromEntries` in
  `src/app/layout.tsx` — all three are the same algorithm),
* the path-based tree builder (`buildTreeFromFilePaths` in
  `src/app/layout.tsx`),
* the files-collection projection (`getFilesCollection`),
* the findings counters (`findingsCountByPath`, `getFolderCount`),
* the vulnerabilities/recommendations aggregation (`findings`),
* the result-state effect of the ingestion handlers, and
* the cosmetic progress state machine (`startProgress`/`stopProgress`).

JavaScript mutation is represented by explicit state passing; JS objects
used as string-keyed records are represented as insertion-ordered
association lists, which matches JS enumeration order for string keys.
JS strings are modelled as Lean strings, with the default `Array.sort()`
comparator modelled as lexicographic order on character code points
(identical to UTF-16 code-unit order for all code points below 0x10000).
-/

set_option autoImplicit false

/-! ### String primitives

Kernel-computable models of the JavaScript string operations the source
uses: `split("/")` + `filter(Boolean)`, `startsWith`, `endsWith`, and the
default lexicographic comparison used by `Array.prototype.sort`. -/

/-- Lexicographic comparison of character lists by code point, the order
used by the JS default sort comparator. -/
def lexLe : List Char → List Char → Bool
  | [], _ => true
  | _ :: _, [] => false
  | a :: as, b :: bs =>
    if a.toNat < b.toNat then true
    else if b.toNat < a.toNat then false
    else lexLe as bs

/-- String comparison via `lexLe` on the underlying characters. -/
def strLe (a b : String) : Bool := lexLe a.data b.data

/-- Model of `full.split("/")` at character level: segments between `'/'`
characters, including empty segments (filtered out by callers just as the
source filters with `Boolean`). `cur` accumulates the current segment in
reverse. -/
def splitOnSlash : List Char → List Char → List String
  | [], cur => [String.mk cur.reverse]
  | c :: rest, cur =>
    if c = '/' then String.mk cur.reverse :: splitOnSlash rest []
    else splitOnSlash rest (c :: cur)

/-- Model of `full.split("/").filter(Boolean)` from
`buildTreeFromFilePaths` (src/app/layout.tsx) and `onAnalyzeGit`
(src/app/analyzer/page.tsx). -/
def pathSegs (full : String) : List String :=
  (splitOnSlash full.data []).filter (fun s => s ≠ "")

/-- Model of JS `a.startsWith(pfx)`. -/
def strStartsWith (a pfx : String) : Bool := pfx.data.isPrefixOf a.data

/-- Model of JS `a.endsWith(sfx)`. -/
def strEndsWith (a sfx : String) : Bool := sfx.data.isSuffixOf a.data

/-! ### Tree data model

`TreeNode` from the source: `{name, path, type, level, supported?,
children?}`. A missing `children` field is `none`; a present (possibly
empty) array is `some`. -/

/-- The `"folder" | "file"` discriminator of directory entries and tree
nodes. -/
inductive NodeType where
  | folder
  | file
deriving DecidableEq

/-- The `TreeNode` record of the source. The optional `children` array is
`Option (List TreeNode)` so that the file/folder children invariant is a
provable property rather than being built into the type. -/
inductive TreeNode where
  | mk (name : String) (path : String) (ty : NodeType) (level : Nat)
      (supported : Option Bool) (children : Option (List TreeNode))

/-- Name field of a `TreeNode`. -/
def TreeNode.name : TreeNode → String
  | .mk n _ _ _ _ _ => n

/-- Path field of a `TreeNode`. -/
def TreeNode.path : TreeNode → String
  | .mk _ p _ _ _ _ => p

/-- Type field of a `TreeNode`. -/
def TreeNode.ty : TreeNode → NodeType
  | .mk _ _ t _ _ _ => t

/-- Level field of a `TreeNode`. -/
def TreeNode.level : TreeNode → Nat
  | .mk _ _ _ l _ _ => l

/-- Children field of a `TreeNode`. -/
def TreeNode.children : TreeNode → Option (List TreeNode)
  | .mk _ _ _ _ _ c => c

/-- The `DirectoryEntry` record of the source: `{type, name, path, level,
supported?}`. -/
structure Entry where
  ty : NodeType
  name : String
  path : String
  level : Nat
  supported : Option Bool
deriving DecidableEq

/-! ### Entry-based tree builder

Embeds `buildTree` (src/app/page.tsx lines 48–82, and the identical
`buildTree` of src/app/analyzer/page.tsx and `buildTreeFromEntries` of
src/app/layout.tsx).

The source mutates: the `stack` holds references to nodes that already sit
inside `tree`, and `parent.children.push(node)` is visible through those
references.  The pure model represents each open folder on the stack as an
`OpenFolder` carrying the children accumulated so far; the folder's
finished `TreeNode` is materialised when it is popped (or at the end of
input), at exactly the position the source gave it when it was pushed —
which is sound because in the source a folder receives children only while
it is the stack top, and its parent receives its next child only after the
folder is popped. -/

/-- A folder currently on the stack: its fields plus the children pushed
into it so far. -/
structure OpenFolder where
  name : String
  path : String
  level : Nat
  supported : Option Bool
  children : List TreeNode

/-- The finished `TreeNode` of an open folder (its `children` array is
present, as the source initialises `children: []` for folders). -/
def OpenFolder.toNode (o : OpenFolder) : TreeNode :=
  .mk o.name o.path .folder o.level o.supported (some o.children)

/-- Append a pending finished node (if any) to an open folder's children,
modelling `parent.children.push(node)`. -/
def OpenFolder.addChild (o : OpenFolder) (pending : Option TreeNode) : OpenFolder :=
  match pending with
  | some n => { o with children := o.children ++ [n] }
  | none => o

/-- Append a pending finished node (if any) to the root forest, modelling
`tree.push(node)`. -/
def attachRoot (roots : List TreeNode) (pending : Option TreeNode) : List TreeNode :=
  match pending with
  | some n => roots ++ [n]
  | none => roots

/-- The pop loop `while (stack.length && stack[top].level >= entry.level)
stack.pop()`.  Each iteration pops the top; in the pure model the popped
folder's finished node is carried in `pending` and attached to the next
element below (or to the root forest when the stack empties).  Phrased
with the `pending` accumulator so the recursion is structural on the
stack. -/
def popLoop (lvl : Nat) (roots : List TreeNode) (pending : Option TreeNode) :
    List OpenFolder → List TreeNode × List OpenFolder
  | [] => (attachRoot roots pending, [])
  | top :: rest =>
    let top2 := top.addChild pending
    if lvl ≤ top2.level then popLoop lvl roots (some top2.toNode) rest
    else (roots, top2 :: rest)

/-- One iteration of the `entries.forEach` body of `buildTree`: run the
pop loop for the entry's level, then attach a file node to the new stack
top (or the forest), or push a folder as a new open frame. -/
def stepEntry (st : List TreeNode × List OpenFolder) (e : Entry) :
    List TreeNode × List OpenFolder :=
  let (roots, stack) := popLoop e.level st.1 none st.2
  match e.ty with
  | .file =>
    let node : TreeNode := .mk e.name e.path .file e.level e.supported none
    match stack with
    | [] => (roots ++ [node], [])
    | p :: rest => (roots, { p with children := p.children ++ [node] } :: rest)
  | .folder =>
    (roots, ⟨e.name, e.path, e.level, e.supported, []⟩ :: stack)

/-- Materialise every folder still open when the input ends (in the
source these nodes are already referenced from the tree; the pure model
attaches them now). -/
def closeStack (roots : List TreeNode) (pending : Option TreeNode) :
    List OpenFolder → List TreeNode
  | [] => attachRoot roots pending
  | top :: rest => closeStack roots (some ((top.addChild pending).toNode)) rest

/-- The entry-based tree builder `buildTree`. -/
def buildTree (entries : List Entry) : List TreeNode :=
  let st := entries.foldl stepEntry ([], [])
  closeStack st.1 none st.2

/-! ### Specification transcription of the entry-based builder

A second definition written from the specification's words: "maintain a
stack of currently open ancestors.  For each entry in input order: pop
from the stack while the top has `level >= entry.level`; if the stack is
now empty, the entry is a root, append to the result forest; otherwise
append as the last child of the new stack top.  If the entry is a folder,
push it onto the stack.  A file is never pushed."  The pop loop is
transcribed literally, removing one frame per step. -/

/-- Pop loop transcribed from the specification: one frame removed per
recursive call, its finished node attached immediately below. -/
def specPop (lvl : Nat) (forest : List TreeNode) (stack : List OpenFolder) :
    List TreeNode × List OpenFolder :=
  match stack with
  | [] => (forest, [])
  | top :: rest =>
    if lvl ≤ top.level then
      match rest with
      | [] => specPop lvl (forest ++ [top.toNode]) []
      | p :: rest2 =>
        specPop lvl forest ({ p with children := p.children ++ [top.toNode] } :: rest2)
    else (forest, top :: rest)
termination_by stack.length

/-- Per-entry step written from the specification's words. -/
def specStep (st : List TreeNode × List OpenFolder) (e : Entry) :
    List TreeNode × List OpenFolder :=
  let (forest, stack) := specPop e.level st.1 st.2
  match e.ty with
  | .file =>
    let node : TreeNode := .mk e.name e.path .file e.level e.supported none
    match stack with
    | [] => (forest ++ [node], [])
    | p :: rest => (forest, { p with children := p.children ++ [node] } :: rest)
  | .folder =>
    (forest, ⟨e.name, e.path, e.level, e.supported, []⟩ :: stack)

/-- Specification version of the builder: fold the per-entry step, then
close the remaining stack by popping everything (level 0 pops every
frame, since every level is `≥ 0`). -/
def buildTreeSpec (entries : List Entry) : List TreeNode :=
  let st := entries.foldl specStep ([], [])
  (specPop 0 st.1 st.2).1

/-! ### Analysis-result data model

The TypeScript record types of src/app/page.tsx (shared by the other
pages).  Optional fields become `Option`; `Array<Record<string, unknown>>`
(the `crypto_algorithms_detected` entries) is modelled as a list of
string-keyed association lists — only the array length is ever used by the
code under verification. -/

/-- The `CryptoFunction` record. -/
structure CryptoFunction where
  name : Option String
  line_start : Option Nat
  content : Option String
  ty : Option String
deriving DecidableEq

/-- The `CryptoSnippet` record. -/
structure CryptoSnippet where
  name : Option String
  line_start : Option Nat
  code : Option String
  ty : Option String
deriving DecidableEq

/-- The `BasicCryptoAnalysis` record. -/
structure BasicCryptoAnalysis where
  file_path : String
  file_name : String
  file_extension : String
  has_crypto : Bool
  crypto_imports : Option (List String)
  crypto_functions : Option (List CryptoFunction)
  crypto_patterns_found : Option (List String)
  crypto_algorithms_detected : Option (List (List (String × String)))
  code_snippets : Option (List CryptoSnippet)
deriving DecidableEq

/-- The `crypto_summary` record of a `GeminiReview`. -/
structure CryptoSummary where
  security_level : Option String
  algorithms_used : Option (List String)
  crypto_functions_identified : Option (List String)
  data_being_hashed : Option (List String)
  vulnerabilities : Option (List String)
  recommendations : Option (List String)
deriving DecidableEq

/-- The `GeminiReview` record. -/
structure GeminiReview where
  original_analysis : Option BasicCryptoAnalysis
  gemini_analysis : Option String
  crypto_summary : Option CryptoSummary
deriving DecidableEq

/-- The `AnalysisResult` payload. -/
structure AnalysisResult where
  status : Option String
  total_files : Option Nat
  crypto_files_found : Option Nat
  message : Option String
  basic_analysis : Option (List BasicCryptoAnalysis)
  detailed_reviews : Option (List GeminiReview)
deriving DecidableEq

/-! ### Files collection (`getFilesCollection`)

From src/app/page.tsx lines 1673–1689 (identical logic in
src/app/layout.tsx lines 82–93 and src/app/analyzer/page.tsx lines
35–40).  When a review lacks `original_analysis`, the source falls back
to `review as unknown as BasicCryptoAnalysis` — the review object itself
reinterpreted as an analysis; the model keeps that case as a separate
constructor.  The source's `.filter(entry => Boolean(entry.analysis))`
tests JS truthiness of the chosen value; both alternatives are objects,
hence truthy, which `viewTruthy` records. -/

/-- The value stored in `entry.analysis`: either a real
`BasicCryptoAnalysis` or the enclosing review cast to one. -/
inductive AnalysisView where
  | real (a : BasicCryptoAnalysis)
  | castReview (r : GeminiReview)
deriving DecidableEq

/-- JS truthiness of an `entry.analysis` value: both alternatives are
objects, and objects are truthy. -/
def viewTruthy : AnalysisView → Bool
  | .real _ => true
  | .castReview _ => true

/-- A `FilesCollectionEntry`. -/
structure FCEntry where
  analysis : AnalysisView
  review : Option GeminiReview
deriving DecidableEq

/-- `review.original_analysis || (review as unknown as BasicCryptoAnalysis)`. -/
def reviewToView (r : GeminiReview) : AnalysisView :=
  match r.original_analysis with
  | some a => .real a
  | none => .castReview r

/-- The `getFilesCollection` function.  `detailed_reviews?.length` and
`basic_analysis?.length` are truthy exactly when the field is present and
the array non-empty. -/
def getFilesCollection (result : Option AnalysisResult) : List FCEntry :=
  match result with
  | none => []
  | some res =>
    if (res.detailed_reviews.getD []).length ≠ 0 then
      ((res.detailed_reviews.getD []).map
        (fun r => { analysis := reviewToView r, review := some r })).filter
        (fun e => viewTruthy e.analysis)
    else if (res.basic_analysis.getD []).length ≠ 0 then
      (res.basic_analysis.getD []).map (fun a => { analysis := .real a, review := none })
    else []

/-! ### Findings counters

`findingsCountByPath` and `getFolderCount` from src/app/page.tsx lines
635–656 (identical in src/app/layout.tsx lines 186–206).  The JS record
`map` is an insertion-ordered association list; assignment to an existing
key overwrites in place, assignment to a new key appends. -/

/-- Association-list lookup, first match wins (JS property access). -/
def alistLookup : List (String × Nat) → String → Option Nat
  | [], _ => none
  | (k, v) :: rest, q => if k = q then some v else alistLookup rest q

/-- Association-list assignment `m[k] = v`: overwrite the existing entry
in place, else append. -/
def alistSet : List (String × Nat) → String → Nat → List (String × Nat)
  | [], k, v => [(k, v)]
  | (k0, v0) :: rest, k, v =>
    if k0 = k then (k0, v) :: rest else (k0, v0) :: alistSet rest k v

/-- `a.crypto_imports?.length || 0` and friends: length of an optional
array, `0` when absent. -/
def optLen {α : Type} (o : Option (List α)) : Nat :=
  match o with
  | some l => l.length
  | none => 0

/-- The per-file count expression of `findingsCountByPath`. -/
def analysisFindingsCount (a : BasicCryptoAnalysis) : Nat :=
  optLen a.crypto_imports + optLen a.crypto_functions +
    optLen a.crypto_patterns_found + optLen a.crypto_algorithms_detected

/-- The count for an `entry.analysis` value: on a cast review every
optional-chained field is absent, so each summand is `0`. -/
def viewFindingsCount : AnalysisView → Nat
  | .real a => analysisFindingsCount a
  | .castReview _ => 0

/-- The key `a.file_path` used for the record assignment.  On a cast
review the field is absent; JS stringifies the `undefined` property key
to `"undefined"`. -/
def viewPathKey : AnalysisView → String
  | .real a => a.file_path
  | .castReview _ => "undefined"

/-- The `findingsCountByPath` record: fold the files collection,
assigning `map[a.file_path] = c`. -/
def findingsCountByPath (files : List FCEntry) : List (String × Nat) :=
  files.foldl (fun m e => alistSet m (viewPathKey e.analysis) (viewFindingsCount e.analysis)) []

/-- The `getFolderCount` callback: empty folder path counts `0`;
otherwise normalise to a trailing `/` and sum the entries of the record
whose key starts with that prefix. -/
def getFolderCount (counts : List (String × Nat)) (folderPath : String) : Nat :=
  if folderPath = "" then 0
  else
    let pfx := if strEndsWith folderPath "/" then folderPath else folderPath ++ "/"
    counts.foldl (fun sum pv => if strStartsWith pv.1 pfx then sum + pv.2 else sum) 0

/-- Claim-side folder count, written from the claim's words: the sum of
the counts of exactly those files whose path starts with the folder path
followed by the separator `'/'`. -/
def claimFolderSum (counts : List (String × Nat)) (folderPath : String) : Nat :=
  ((counts.filter (fun pv => strStartsWith pv.1 (folderPath ++ "/"))).map Prod.snd).sum

/-- Amended claim-side folder count: the folder path is normalised with a
trailing separator (appended only when not already present) before the
prefix comparison. -/
def claimFolderSumNorm (counts : List (String × Nat)) (folderPath : String) : Nat :=
  let pfx := if strEndsWith folderPath "/" then folderPath else folderPath ++ "/"
  ((counts.filter (fun pv => strStartsWith pv.1 pfx)).map Prod.snd).sum

/-! ### Findings aggregation (`findings`)

From src/app/page.tsx lines 1062–1074: vulnerabilities and
recommendations are pushed from every `detailed_reviews[].crypto_summary`
whose array is non-empty, then `uniq = Array.from(new Set(arr)).filter(Boolean)`.
A JS `Set` iterates in first-insertion order. -/

/-- Deduplication keeping the first occurrence, the iteration order of a
JS `Set` built by successive insertion.  `seen` is the set built so
far. -/
def dedupGo (seen : List String) : List String → List String
  | [] => []
  | a :: rest =>
    if a ∈ seen then dedupGo seen rest else a :: dedupGo (a :: seen) rest

/-- `Array.from(new Set(arr))`. -/
def jsSetDedup (l : List String) : List String := dedupGo [] l

/-- The vulnerabilities array of a review's `crypto_summary`, empty when
either level is absent (`sum?.vulnerabilities` falsy). -/
def summaryVulns (rev : GeminiReview) : List String :=
  match rev.crypto_summary with
  | some s => s.vulnerabilities.getD []
  | none => []

/-- The recommendations array of a review's `crypto_summary`. -/
def summaryRecs (rev : GeminiReview) : List String :=
  match rev.crypto_summary with
  | some s => s.recommendations.getD []
  | none => []

/-- The collection loop of `findings`: when `detailed_reviews` is present
and non-empty, push each review's array when it is non-empty. -/
def collectStrings (pick : GeminiReview → List String) (result : Option AnalysisResult) :
    List String :=
  match result with
  | none => []
  | some res =>
    if (res.detailed_reviews.getD []).length ≠ 0 then
      (res.detailed_reviews.getD []).foldl
        (fun acc rev =>
          let vs := pick rev
          if vs.length ≠ 0 then acc ++ vs else acc) []
    else []

/-- `findings.vulnerabilities`: collect, dedup via `Set`, drop falsy
(empty) strings. -/
def findingsVulnerabilities (result : Option AnalysisResult) : List String :=
  (jsSetDedup (collectStrings summaryVulns result)).filter (fun s => s ≠ "")

/-- `findings.recommendations`. -/
def findingsRecommendations (result : Option AnalysisResult) : List String :=
  (jsSetDedup (collectStrings summaryRecs result)).filter (fun s => s ≠ "")

/-- Claim-side aggregation: concatenate the arrays across all
`detailed_reviews[].crypto_summary`, remove falsy/empty strings, and
deduplicate by exact string equality preserving first-seen order. -/
def claimAggregate (pick : GeminiReview → List String) (res : AnalysisResult) : List String :=
  jsSetDedup ((((res.detailed_reviews.getD []).map pick).flatten).filter (fun s => s ≠ ""))

/-! ### Result-state effect of the ingestion handlers

For claim C1 only the effect of a request's outcome on the stored
`AnalysisResult` matters.  An outcome is either a received HTTP response
— with its `ok` flag and the JSON parse of its body (`none` when the body
is not valid JSON, in which case `res.json()` throws) — or a transport
failure (`fetch` itself throws). -/

/-- Outcome of one backend request as seen by the handler. -/
inductive FetchOutcome where
  | response (ok : Bool) (body : Option AnalysisResult)
  | netFail (msg : String)
deriving DecidableEq

/-- Result-state effect of the checked handlers of src/app/page.tsx
(`requestAnalysis`, `handleUploadAnalyze`, `analyzeGitRepository`,
`handleAnalyzeStored`): on `!response.ok` they notify and return before
touching the result; a thrown `res.json()` or transport error lands in
`catch`; only a parsed body of an OK response replaces the result. -/
def checkedIngest (prev : Option AnalysisResult) (o : FetchOutcome) : Option AnalysisResult :=
  match o with
  | .response true (some d) => some d
  | .response true none => prev
  | .response false _ => prev
  | .netFail _ => prev

/-- Result-state effect of the unchecked handlers — the editor-page
effect of src/app/layout.tsx (lines 242–277) and `onAnalyzeLocal` /
`onAnalyzeGit` / `onAnalyzeZip` of src/app/analyzer/page.tsx: they call
`res.json()` and `setAnalysisResult(data)` without inspecting
`response.ok`, so any response whose body parses as JSON replaces the
stored result; only a transport failure or an unparseable body leaves it
unchanged. -/
def uncheckedIngest (prev : Option AnalysisResult) (o : FetchOutcome) : Option AnalysisResult :=
  match o with
  | .response _ (some d) => some d
  | .response _ none => prev
  | .netFail _ => prev

/-! ### Cosmetic progress state machine

From `startProgress`/`stopProgress` of src/app/page.tsx lines 664–679
(asymptotic cap 90), the analyzer page (cap 92) and
`startProgress`/`finishProgress` of src/app/layout.tsx lines 208–223
(cap 98).  Events of one ingestion action: `start` sets the bar to 1 and
installs the interval; each interval `tick` adds `Math.random()*6 + 1`
(a value in `[1, 7)`) capped at the ceiling; `finish` (the `finally`
block) clears the interval and sets 100; `windowElapsed` (the scheduled
timeout) resets to 0.  The interval is cleared before 100 is set and any
pre-existing timer is cleared on `start`, so the events of a single
action occur in exactly this order; that timer discipline is the modelling
boundary. -/

/-- Progress events of one ingestion action. -/
inductive ProgressEvent where
  | start
  | tick (r : ℚ)
  | finish
  | windowElapsed

/-- Effect of one event on the displayed percentage. -/
def progressStep (cap : ℚ) (p : ℚ) : ProgressEvent → ℚ
  | .start => 1
  | .tick r => min (p + r) cap
  | .finish => 100
  | .windowElapsed => 0

/-- The percentage after each event of a trace, in order. -/
def statesAfter (cap : ℚ) (p : ℚ) : List ProgressEvent → List ℚ
  | [] => []
  | e :: evs =>
    let q := progressStep cap p e
    q :: statesAfter cap q evs

/-- The event trace of one ingestion action whose interval fired with
increments `rs` while the request was outstanding. -/
def ingestTrace (rs : List ℚ) : List ProgressEvent :=
  .start :: (rs.map .tick) ++ [.finish, .windowElapsed]

/-! ### Path-based tree builder (`buildTreeFromFilePaths`)

From src/app/layout.tsx lines 118–146.  The intermediate trie is a JS
object tree: each node carries `name`, `path`, `type` and a
`children` record keyed by path segment.  Since every child is created
with `name: segment` under the key `segment` and never renamed, the key
always equals the child's `name`; the model therefore stores children as
an insertion-ordered sequence of nodes and looks them up by name.
`toNodes` reads `Object.keys(children).sort()` and converts each child in
sorted key order; the model converts the children in insertion order and
then sorts the resulting nodes by `name`, which yields the same list
because conversion keeps the name/key and both orders are produced by a
stable sort under the same comparator. -/

mutual
/-- A trie node `{name, path, type, children}`. -/
inductive Trie where
  | mk (name : String) (path : String) (ty : NodeType) (children : TrieL)
/-- The insertion-ordered children of a trie node. -/
inductive TrieL where
  | nil
  | cons (hd : Trie) (tl : TrieL)
end

/-- Name of a trie node (the record key it is stored under). -/
def Trie.name : Trie → String
  | .mk n _ _ _ => n

/-- Accumulated path of a trie node. -/
def Trie.path : Trie → String
  | .mk _ p _ _ => p

/-- Type of a trie node. -/
def Trie.ty : Trie → NodeType
  | .mk _ _ t _ => t

/-- Children of a trie node. -/
def Trie.children : Trie → TrieL
  | .mk _ _ _ cs => cs

/-- The children as a plain list, for stating properties. -/
def TrieL.toList : TrieL → List Trie
  | .nil => []
  | .cons t rest => t :: rest.toList

/-- The keys of a children record in insertion order. -/
def TrieL.names : TrieL → List String
  | .nil => []
  | .cons t rest => t.name :: rest.names

/-- Property read `children[segment]`: first (only) node stored under the
name. -/
def TrieL.lookup : TrieL → String → Option Trie
  | .nil, _ => none
  | .cons t rest, k => if t.name = k then some t else rest.lookup k

/-- Overwrite the node stored under a name, keeping its position
(JS record assignment to an existing key). -/
def TrieL.setNamed : TrieL → String → Trie → TrieL
  | .nil, _, _ => .nil
  | .cons t rest, k, v => if t.name = k then .cons v rest else .cons t (rest.setNamed k v)

/-- Append a node under a fresh key (JS record assignment to a new key
adds it at the end of the enumeration order). -/
def TrieL.append : TrieL → Trie → TrieL
  | .nil, v => .cons v .nil
  | .cons t rest, v => .cons t (rest.append v)

/-- The `parts.forEach` walk of one path: descend through existing
children (`cursor.children[segment] ||= …` keeps an existing node,
including its `type`), create missing ones with `type` `file` exactly at
the terminal segment, and extend `agg` by `"/" + segment`. -/
def insertSegs : TrieL → String → List String → TrieL
  | cs, _, [] => cs
  | cs, agg, s :: rest =>
    let agg2 := agg ++ "/" ++ s
    match cs.lookup s with
    | some t => cs.setNamed s (Trie.mk t.name t.path t.ty (insertSegs t.children agg2 rest))
    | none =>
      cs.append (Trie.mk s agg2 (if rest.isEmpty then .file else .folder)
        (insertSegs .nil agg2 rest))

/-- The trie built from the whole path list (the `for (const full of
paths)` loop; the root object's `children`). -/
def buildTrie (paths : List String) : TrieL :=
  paths.foldl (fun cs full => insertSegs cs "" (pathSegs full)) .nil

/-- Insert a node into a list sorted by `name` (insertion sort step). -/
def insertSorted (x : TreeNode) : List TreeNode → List TreeNode
  | [] => [x]
  | y :: ys => if strLe x.name y.name then x :: y :: ys else y :: insertSorted x ys

/-- Sort tree nodes by `name` (the `Object.keys(...).sort()` order; see
the section comment for why sorting the converted nodes is the same). -/
def sortNodes : List TreeNode → List TreeNode
  | [] => []
  | x :: xs => insertSorted x (sortNodes xs)

mutual
/-- Convert one trie node at the given depth: files get no `children`
field, folders get their converted, sorted children. -/
def Trie.toNode : Trie → Nat → TreeNode
  | .mk n p ty cs, level =>
    match ty with
    | .file => .mk n p .file level none none
    | .folder => .mk n p .folder level none (some (sortNodes (TrieL.toNodesRaw cs (level + 1))))
/-- Convert a children record in insertion order (sorted by the
caller). -/
def TrieL.toNodesRaw : TrieL → Nat → List TreeNode
  | .nil, _ => []
  | .cons t rest, level => Trie.toNode t level :: TrieL.toNodesRaw rest level
end

/-- The path-based builder `buildTreeFromFilePaths`: build the trie, then
convert its root children at level 0. -/
def buildTreeFromFilePaths (paths : List String) : List TreeNode :=
  sortNodes ((buildTrie paths).toNodesRaw 0)

/-! ### Predicates used by the claims about the builders -/

/-- The children invariant: a `file` node has no `children` field and a
`folder` node has a (possibly empty) `children` sequence, recursively. -/
inductive GoodNode : TreeNode → Prop where
  | file : ∀ n p lvl s, GoodNode (.mk n p .file lvl s none)
  | folder : ∀ n p lvl s cs, (∀ c ∈ cs, GoodNode c) → GoodNode (.mk n p .folder lvl s (some cs))

/-- A forest whose sibling names are in sorted order. -/
def namesSortedLe (ns : List TreeNode) : Prop :=
  List.Pairwise (fun a b => strLe a.name b.name = true) ns

/-- Every `children` sequence of the node, at every depth, is sorted
lexicographically by name. -/
inductive NodeSorted : TreeNode → Prop where
  | noChildren : ∀ n p ty lvl s, NodeSorted (.mk n p ty lvl s none)
  | withChildren : ∀ n p ty lvl s cs, namesSortedLe cs → (∀ c ∈ cs, NodeSorted c) →
      NodeSorted (.mk n p ty lvl s (some cs))

/-- Two paths are compatible when their nonempty-segment sequences are
equal or neither is a prefix of the other (equivalently: neither is a
proper prefix of the other). -/
def segCompatB (x y : String) : Bool :=
  decide (pathSegs x = pathSegs y) ||
    (!(pathSegs x).isPrefixOf (pathSegs y) && !(pathSegs y).isPrefixOf (pathSegs x))

/-- Pairwise compatibility of a whole path list. -/
def pairwiseCompatB (paths : List String) : Bool :=
  paths.all (fun x => paths.all (fun y => segCompatB x y))

/-! ### Well-formedness and extensional equivalence of tries

`wfb` records that a children record never stores two nodes under the
same name (true of every JS object, hence of every trie the source
builds).  `TrieLEquiv` identifies tries that differ only in the insertion
order of their children records; since `toNodes` sorts every level, such
tries render to the same forest. -/

mutual
/-- Names are duplicate-free at every level. -/
def Trie.wfb : Trie → Bool
  | .mk _ _ _ cs => cs.wfb
/-- Names are duplicate-free at every level. -/
def TrieL.wfb : TrieL → Bool
  | .nil => true
  | .cons t rest => !(rest.names.contains t.name) && t.wfb && rest.wfb
end

mutual
/-- Equality of trie nodes up to reordering of children records. -/
inductive TrieEquiv : Trie → Trie → Prop where
  | intro : ∀ n p ty cs1 cs2, TrieLEquiv cs1 cs2 → TrieEquiv (.mk n p ty cs1) (.mk n p ty cs2)
/-- Children records with the same multiset of names whose entries agree
(up to `TrieEquiv`) under lookup. -/
inductive TrieLEquiv : TrieL → TrieL → Prop where
  | intro : ∀ cs1 cs2, cs1.names.Perm cs2.names →
      (∀ k t1 t2, cs1.lookup k = some t1 → cs2.lookup k = some t2 → TrieEquiv t1 t2) →
      TrieLEquiv cs1 cs2
end

/-! ## Theorems -/

/-! ### Equivalence of `buildTree` with the specification transcription -/

/-- The pending-accumulator pop loop started with a pending node agrees
with the literal one-frame-at-a-time pop loop run on the stack whose top
already received that node (and appends the node to the forest when the
stack is empty). -/
theorem popLoop_some_eq (stack : List OpenFolder) :
    ∀ (lvl : Nat) (forest : List TreeNode) (n : TreeNode),
    popLoop lvl forest (some n) stack =
      match stack with
      | [] => (forest ++ [n], [])
      | top :: rest =>
        specPop lvl forest ({ top with children := top.children ++ [n] } :: rest) := by
  induction stack with
  | nil => intro lvl forest n; rfl
  | cons top rest ih =>
    intro lvl forest n
    simp only [popLoop, OpenFolder.addChild]
    conv_rhs => rw [specPop.eq_def]
    dsimp only
    by_cases h : lvl ≤ top.level
    · rw [if_pos h, if_pos h]
      cases rest with
      | nil =>
        conv_rhs => rw [specPop.eq_def]
        rfl
      | cons p rest2 => exact ih lvl forest _
    · rw [if_neg h, if_neg h]

/-- The pending-accumulator pop loop started empty is the literal pop
loop. -/
theorem popLoop_none_eq (stack : List OpenFolder) (lvl : Nat) (forest : List TreeNode) :
    popLoop lvl forest none stack = specPop lvl forest stack := by
  cases stack with
  | nil =>
    conv_rhs => rw [specPop.eq_def]
    rfl
  | cons top rest =>
    simp only [popLoop, OpenFolder.addChild]
    conv_rhs => rw [specPop.eq_def]
    dsimp only
    by_cases h : lvl ≤ top.level
    · rw [if_pos h, if_pos h]
      cases rest with
      | nil =>
        conv_rhs => rw [specPop.eq_def]
        rfl
      | cons p rest2 => exact popLoop_some_eq (p :: rest2) lvl forest top.toNode
    · rw [if_neg h, if_neg h]

/-- The per-entry steps of the two transcriptions agree. -/
theorem stepEntry_eq_specStep (st : List TreeNode × List OpenFolder) (e : Entry) :
    stepEntry st e = specStep st e := by
  unfold stepEntry specStep
  rw [popLoop_none_eq]

/-- Closing the remaining stack is popping every frame. -/
theorem closeStack_eq_popLoop (stack : List OpenFolder) :
    ∀ (roots : List TreeNode) (pending : Option TreeNode),
    closeStack roots pending stack = (popLoop 0 roots pending stack).1 := by
  induction stack with
  | nil => intro roots pending; rfl
  | cons top rest ih =>
    intro roots pending
    simp only [closeStack, popLoop]
    rw [if_pos (Nat.zero_le _)]
    exact ih roots (some ((top.addChild pending).toNode))

/-- The source's builder and the specification transcription agree on
every input. -/
theorem buildTree_eq_buildTreeSpec (entries : List Entry) :
    buildTree entries = buildTreeSpec entries := by
  have hstep : stepEntry = specStep := funext fun st => funext fun e => stepEntry_eq_specStep st e
  unfold buildTree buildTreeSpec
  rw [hstep, closeStack_eq_popLoop, popLoop_none_eq]

/-- Claim C2: the entry-based tree builder processes entries in input
order with a stack — popping while the stack top has level ≥ the entry's
level, appending to the root forest when the stack is empty and otherwise
as the last child of the new stack top, pushing only folders (proved as
equality with the specification transcription `buildTreeSpec` on every
input) — and on `[⟨folder,a,0⟩, ⟨folder,b,1⟩, ⟨file,c,2⟩, ⟨file,d,0⟩]`
it produces the two roots `a{ b{ c } }` and `d`. -/
theorem c2_entry_builder_stack_algorithm :
    (∀ entries, buildTree entries = buildTreeSpec entries) ∧
    buildTree [⟨.folder, "a", "/a", 0, none⟩, ⟨.folder, "b", "/a/b", 1, none⟩,
        ⟨.file, "c", "/a/b/c", 2, none⟩, ⟨.file, "d", "/d", 0, none⟩] =
      [.mk "a" "/a" .folder 0 none (some [.mk "b" "/a/b" .folder 1 none
          (some [.mk "c" "/a/b/c" .file 2 none none])]),
        .mk "d" "/d" .file 0 none none] :=
  ⟨buildTree_eq_buildTreeSpec, by rfl⟩

/-- Claim C7: in the entry-based builder, an entry whose level exceeds
the stack top's level by any amount (not necessarily one) is attached as
a child of that nearest surviving ancestor; empty input yields an empty
forest; consecutive same-level entries under an open folder become its
siblings (`[⟨folder,a,0⟩, ⟨file,x,1⟩, ⟨file,y,1⟩]` puts both `x` and `y`
under `a`); the fourth conjunct shows a level jump from 0 to 3 to 7 and
back to 1 still attaching to the nearest surviving ancestor. -/
theorem c7_entry_builder_edge_cases :
    (buildTree [] = []) ∧
    (buildTree [⟨.folder, "a", "/a", 0, none⟩, ⟨.file, "x", "/a/x", 1, none⟩,
        ⟨.file, "y", "/a/y", 1, none⟩] =
      [.mk "a" "/a" .folder 0 none (some [.mk "x" "/a/x" .file 1 none none,
        .mk "y" "/a/y" .file 1 none none])]) ∧
    (buildTree [⟨.folder, "a", "/a", 0, none⟩, ⟨.folder, "b", "/a/b", 3, none⟩,
        ⟨.file, "c", "/a/b/c", 7, none⟩, ⟨.file, "d", "/a/d", 1, none⟩] =
      [.mk "a" "/a" .folder 0 none (some [.mk "b" "/a/b" .folder 3 none
          (some [.mk "c" "/a/b/c" .file 7 none none]),
        .mk "d" "/a/d" .file 1 none none])]) ∧
    (∀ (roots : List TreeNode) (stack : List OpenFolder) (top : OpenFolder) (e : Entry),
      e.ty = .file → top.level < e.level →
      stepEntry (roots, top :: stack) e =
        (roots, { top with
          children := top.children ++ [.mk e.name e.path .file e.level e.supported none] }
          :: stack)) := by
  refine ⟨rfl, rfl, rfl, ?_⟩
  intro roots stack top e hty hlt
  obtain ⟨ety, en, ep, el, es⟩ := e
  cases hty
  simp only [stepEntry, popLoop, OpenFolder.addChild]
  rw [if_neg (Nat.not_le.mpr hlt)]

/-- Witness for C7: the general conjunct applied to a stack top at level
0 and a file entry at level 5 (a level gap of 5). -/
theorem c7_entry_builder_edge_cases_witness :
    stepEntry ([], [⟨"a", "/a", 0, none, []⟩]) ⟨.file, "x", "/a/x", 5, none⟩ =
      ([], [⟨"a", "/a", 0, none, [.mk "x" "/a/x" .file 5 none none]⟩]) :=
  c7_entry_builder_edge_cases.2.2.2 [] [] ⟨"a", "/a", 0, none, []⟩
    ⟨.file, "x", "/a/x", 5, none⟩ rfl (by decide)

/-! ### Claim C1: effect of failed requests on the stored result -/

/-- Counterexample to claim C1 as stated: in the unchecked handlers (the
editor-page effect and the analyzer-page handlers, which include the
local-analyze and Git-clone ingestion actions), a non-success HTTP
response whose body parses as JSON replaces the stored `AnalysisResult`
instead of leaving it untouched. -/
theorem c1_counterexample :
    uncheckedIngest (some ⟨some "success", some 3, none, some "previous result", none, none⟩)
        (.response false (some ⟨some "error", none, none, some "path not found", none, none⟩)) =
      some ⟨some "error", none, none, some "path not found", none, none⟩ ∧
    (some (⟨some "error", none, none, some "path not found", none, none⟩ : AnalysisResult)) ≠
      some ⟨some "success", some 3, none, some "previous result", none, none⟩ := by
  exact ⟨rfl, by decide⟩

/-- Claim C1, amended: the four checked handlers of the home page
(`requestAnalysis`, `handleUploadAnalyze`, `analyzeGitRepository`,
`handleAnalyzeStored`) leave the prior result untouched on any non-success
response, unparseable body, or transport failure; the unchecked handlers
(editor-page effect, analyzer-page handlers) leave it untouched only on a
transport failure or a body that fails to parse as JSON. -/
theorem c1_failed_ingestion_amended :
    (∀ (prev : Option AnalysisResult) (body : Option AnalysisResult),
      checkedIngest prev (.response false body) = prev) ∧
    (∀ (prev : Option AnalysisResult), checkedIngest prev (.response true none) = prev) ∧
    (∀ (prev : Option AnalysisResult) (msg : String), checkedIngest prev (.netFail msg) = prev) ∧
    (∀ (prev : Option AnalysisResult) (ok : Bool), uncheckedIngest prev (.response ok none) = prev) ∧
    (∀ (prev : Option AnalysisResult) (msg : String), uncheckedIngest prev (.netFail msg) = prev) :=
  ⟨fun _ _ => rfl, fun _ => rfl, fun _ _ => rfl, fun _ _ => rfl, fun _ _ => rfl⟩

/-! ### Claim C4: per-folder counts -/

/-- The accumulation loop of `getFolderCount` computes the sum of the
matching entries' values. -/
theorem foldl_count_eq_filter_sum (counts : List (String × Nat)) (pfx : String) :
    ∀ (acc : Nat),
    counts.foldl (fun sum pv => if strStartsWith pv.1 pfx then sum + pv.2 else sum) acc =
      acc + ((counts.filter (fun pv => strStartsWith pv.1 pfx)).map Prod.snd).sum := by
  induction counts with
  | nil => intro acc; simp
  | cons pv rest ih =>
    intro acc
    by_cases h : strStartsWith pv.1 pfx
    · simp [h, ih, Nat.add_assoc]
    · simp [h, ih]

/-- Counterexample to claim C4 as stated: for the folder path `"/src/"`
(already ending in the separator) the source compares against the prefix
`"/src/"`, not `"/src//"`; on the claim's example counts the code yields
5 while the claim's formula — prefix `folderPath ++ "/"` — yields 0. -/
theorem c4_counterexample :
    getFolderCount [("/src/a.py", 2), ("/src/b.py", 3), ("/lib/c.py", 1)] "/src/" = 5 ∧
    claimFolderSum [("/src/a.py", 2), ("/src/b.py", 3), ("/lib/c.py", 1)] "/src/" = 0 ∧
    getFolderCount [("/src/a.py", 2), ("/src/b.py", 3), ("/lib/c.py", 1)] "/src/" ≠
      claimFolderSum [("/src/a.py", 2), ("/src/b.py", 3), ("/lib/c.py", 1)] "/src/" :=
  ⟨rfl, rfl, by decide⟩

/-- Claim C4, amended: for every non-empty folder path, the per-folder
count is the sum of the counts of exactly those files whose path starts
with the folder path normalised with a trailing separator (the `'/'` is
appended only when not already present); the empty folder path counts 0.
On the example counts, `/src` counts 5, `/lib` counts 1 and `/s` matches
no file. -/
theorem c4_folder_count_amended :
    (∀ (counts : List (String × Nat)) (folderPath : String), folderPath ≠ "" →
      getFolderCount counts folderPath = claimFolderSumNorm counts folderPath) ∧
    (∀ counts : List (String × Nat), getFolderCount counts "" = 0) ∧
    getFolderCount [("/src/a.py", 2), ("/src/b.py", 3), ("/lib/c.py", 1)] "/src" = 5 ∧
    getFolderCount [("/src/a.py", 2), ("/src/b.py", 3), ("/lib/c.py", 1)] "/lib" = 1 ∧
    getFolderCount [("/src/a.py", 2), ("/src/b.py", 3), ("/lib/c.py", 1)] "/s" = 0 := by
  refine ⟨?_, fun counts => rfl, rfl, rfl, rfl⟩
  intro counts folderPath hne
  unfold getFolderCount claimFolderSumNorm
  rw [if_neg hne]
  exact foldl_count_eq_filter_sum counts _ 0 |>.trans (Nat.zero_add _)

/-- Witness for C4: the amended equation applied at the example counts
and folder `"/src"`. -/
theorem c4_folder_count_amended_witness :
    getFolderCount [("/src/a.py", 2), ("/src/b.py", 3), ("/lib/c.py", 1)] "/src" =
      claimFolderSumNorm [("/src/a.py", 2), ("/src/b.py", 3), ("/lib/c.py", 1)] "/src" :=
  c4_folder_count_amended.1 [("/src/a.py", 2), ("/src/b.py", 3), ("/lib/c.py", 1)] "/src"
    (by decide)

/-! ### Claim C5: findings aggregation -/

/-- The collection loop of `findings` concatenates the picked arrays
(skipping an empty array is a no-op of concatenation). -/
theorem collect_foldl_eq (pick : GeminiReview → List String) (revs : List GeminiReview) :
    ∀ (acc : List String),
    revs.foldl (fun acc rev =>
        let vs := pick rev
        if vs.length ≠ 0 then acc ++ vs else acc) acc =
      acc ++ (revs.map pick).flatten := by
  induction revs with
  | nil => intro acc; simp
  | cons rev rest ih =>
    intro acc
    simp only [List.foldl_cons, List.map_cons, List.flatten_cons]
    by_cases h : (pick rev).length ≠ 0
    · rw [if_pos h, ih, List.append_assoc]
    · push_neg at h
      have hnil : pick rev = [] := List.eq_nil_of_length_eq_zero h
      rw [if_neg (by omega), ih, hnil]
      simp

/-- Deduplication keeping first occurrences commutes with removing the
elements a predicate rejects, as long as the seen-sets agree on the kept
elements. -/
theorem dedupGo_filter (p : String → Bool) :
    ∀ (l seen1 seen2 : List String), (∀ a, p a = true → (a ∈ seen1 ↔ a ∈ seen2)) →
    (dedupGo seen1 l).filter p = dedupGo seen2 (l.filter p) := by
  intro l
  induction l with
  | nil => intro seen1 seen2 h; rfl
  | cons a rest ih =>
    intro seen1 seen2 h
    by_cases hp : p a
    · by_cases hm : a ∈ seen1
      · have hm2 : a ∈ seen2 := (h a hp).mp hm
        simp [dedupGo, hm, hm2, hp, ih seen1 seen2 h]
      · have hm2 : a ∉ seen2 := fun hx => hm ((h a hp).mpr hx)
        have hsub : ∀ b, p b = true → (b ∈ a :: seen1 ↔ b ∈ a :: seen2) := by
          intro b hb
          simp [List.mem_cons, h b hb]
        simp [dedupGo, hm, hm2, hp, ih (a :: seen1) (a :: seen2) hsub]
    · have hsub : ∀ b, p b = true → (b ∈ a :: seen1 ↔ b ∈ seen2) := by
        intro b hb
        have hba : b ≠ a := fun hba => by rw [hba] at hb; exact hp hb
        simp [List.mem_cons, hba, h b hb]
      by_cases hm : a ∈ seen1
      · simp [dedupGo, hm, hp, ih seen1 seen2 h]
      · simp [dedupGo, hm, hp, ih (a :: seen1) seen2 hsub]

/-- Claim C5: the aggregated vulnerabilities (and recommendations) equal
the concatenation of the corresponding arrays across all
`detailed_reviews[].crypto_summary`, with falsy/empty strings removed and
deduplicated by exact string equality preserving first-seen order; the
example `["SQL injection", "Weak hash"]` + `["Weak hash"]` across two
review records collapses to `["SQL injection", "Weak hash"]`. -/
theorem c5_findings_dedup :
    (∀ res : AnalysisResult, findingsVulnerabilities (some res) = claimAggregate summaryVulns res) ∧
    (∀ res : AnalysisResult, findingsRecommendations (some res) = claimAggregate summaryRecs res) ∧
    findingsVulnerabilities (some ⟨none, none, none, none, none,
        some [⟨none, none, some ⟨none, none, none, none, some ["SQL injection", "Weak hash"], none⟩⟩,
          ⟨none, none, some ⟨none, none, none, none, some ["Weak hash"], none⟩⟩]⟩) =
      ["SQL injection", "Weak hash"] := by
  have key : ∀ (pick : GeminiReview → List String) (res : AnalysisResult),
      (jsSetDedup (collectStrings pick (some res))).filter (fun s => s ≠ "") =
        claimAggregate pick res := by
    intro pick res
    unfold collectStrings claimAggregate
    dsimp only
    by_cases h : (res.detailed_reviews.getD []).length ≠ 0
    · rw [if_pos h, collect_foldl_eq pick _ [], List.nil_append]
      exact dedupGo_filter _ _ [] [] (fun a ha => Iff.rfl)
    · push_neg at h
      have hnil : res.detailed_reviews.getD [] = [] := List.eq_nil_of_length_eq_zero h
      rw [if_neg (by rw [h]; exact fun hx => hx rfl), hnil]
      rfl
  exact ⟨fun res => key summaryVulns res, fun res => key summaryRecs res, by rfl⟩

/-! ### Claim C8: per-file findings counts -/

/-- Looking up the key just assigned yields the assigned value. -/
theorem alistLookup_set_self (m : List (String × Nat)) (k : String) (v : Nat) :
    alistLookup (alistSet m k v) k = some v := by
  induction m with
  | nil => simp [alistSet, alistLookup]
  | cons kv rest ih =>
    by_cases h : kv.1 = k
    · simp [alistSet, alistLookup, h]
    · simp [alistSet, alistLookup, h, ih]

/-- Assigning one key does not change the lookup of another. -/
theorem alistLookup_set_other (m : List (String × Nat)) (k k2 : String) (v : Nat)
    (h : k ≠ k2) : alistLookup (alistSet m k2 v) k = alistLookup m k := by
  induction m with
  | nil => simp [alistSet, alistLookup, Ne.symm h]
  | cons kv rest ih =>
    by_cases h2 : kv.1 = k2
    · have hk : ¬ kv.1 = k := by rw [h2]; exact Ne.symm h
      simp only [alistSet, if_pos h2, alistLookup, if_neg hk]
    · simp only [alistSet, if_neg h2, alistLookup]
      by_cases h3 : kv.1 = k
      · rw [if_pos h3, if_pos h3]
      · rw [if_neg h3, if_neg h3]
        exact ih

/-- Folding assignments whose keys all differ from `k` does not change
the lookup of `k`. -/
theorem findingsCount_foldl_preserve (files : List FCEntry) :
    ∀ (m : List (String × Nat)) (k : String),
    (∀ f ∈ files, viewPathKey f.analysis ≠ k) →
    alistLookup (files.foldl
      (fun acc f => alistSet acc (viewPathKey f.analysis) (viewFindingsCount f.analysis)) m) k =
      alistLookup m k := by
  induction files with
  | nil => intro m k _; rfl
  | cons f rest ih =>
    intro m k hk
    rw [List.foldl_cons, ih _ k (fun g hg => hk g (List.mem_cons_of_mem f hg)),
      alistLookup_set_other _ _ _ _ (fun hh => hk f (List.mem_cons_self f rest) hh.symm)]

/-- With duplicate-free keys, the built record maps every file's key to
that file's count. -/
theorem findingsCount_foldl_lookup (files : List FCEntry) :
    ∀ (m : List (String × Nat)) (e : FCEntry), e ∈ files →
    (files.map (fun f => viewPathKey f.analysis)).Nodup →
    alistLookup (files.foldl
      (fun acc f => alistSet acc (viewPathKey f.analysis) (viewFindingsCount f.analysis)) m)
      (viewPathKey e.analysis) = some (viewFindingsCount e.analysis) := by
  induction files with
  | nil => intro m e he; exact absurd he (List.not_mem_nil e)
  | cons f rest ih =>
    intro m e he hnd
    rw [List.map_cons, List.nodup_cons] at hnd
    rcases List.mem_cons.mp he with rfl | hmem
    · rw [List.foldl_cons, findingsCount_foldl_preserve rest _ _ ?_, alistLookup_set_self]
      intro g hg hh
      exact hnd.1 (by rw [← hh]; exact List.mem_map_of_mem (fun x => viewPathKey x.analysis) hg)
    · rw [List.foldl_cons]
      exact ih _ e hmem hnd.2

/-- Claim C8: for every file in the files collection (under the
source's implicit assumption that file paths are unique keys), the
per-file findings count stored in `findingsCountByPath` equals the sum of
the lengths of its `crypto_imports`, `crypto_functions`,
`crypto_patterns_found` and `crypto_algorithms_detected` arrays, an
absent array contributing 0. -/
theorem c8_per_file_count (files : List FCEntry) (e : FCEntry) (a : BasicCryptoAnalysis)
    (hmem : e ∈ files) (ha : e.analysis = .real a)
    (hnd : (files.map (fun f => viewPathKey f.analysis)).Nodup) :
    alistLookup (findingsCountByPath files) a.file_path =
      some (optLen a.crypto_imports + optLen a.crypto_functions +
        optLen a.crypto_patterns_found + optLen a.crypto_algorithms_detected) := by
  unfold findingsCountByPath
  have h := findingsCount_foldl_lookup files [] e hmem hnd
  rw [ha] at h
  exact h

/-- Witness for C8: a two-file collection with distinct paths; the count
of `/src/a.py` (2 imports, 1 function, no patterns, no algorithms) is 3. -/
theorem c8_per_file_count_witness :
    alistLookup (findingsCountByPath
      [⟨.real ⟨"/src/a.py", "a.py", "py", true, some ["hashlib", "hmac"],
         some [⟨some "md5", none, none, none⟩], none, none, none⟩, none⟩,
       ⟨.real ⟨"/src/b.py", "b.py", "py", false, none, none, none, none, none⟩, none⟩])
      "/src/a.py" = some 3 :=
  c8_per_file_count
    [⟨.real ⟨"/src/a.py", "a.py", "py", true, some ["hashlib", "hmac"],
       some [⟨some "md5", none, none, none⟩], none, none, none⟩, none⟩,
     ⟨.real ⟨"/src/b.py", "b.py", "py", false, none, none, none, none, none⟩, none⟩]
    ⟨.real ⟨"/src/a.py", "a.py", "py", true, some ["hashlib", "hmac"],
       some [⟨some "md5", none, none, none⟩], none, none, none⟩, none⟩
    ⟨"/src/a.py", "a.py", "py", true, some ["hashlib", "hmac"],
       some [⟨some "md5", none, none, none⟩], none, none, none⟩
    (List.mem_cons_self _ _) rfl (by decide)

/-! ### Claim C10: precedence of `detailed_reviews` over `basic_analysis` -/

/-- Claim C10: the files collection is built solely from
`detailed_reviews` when that array is present and non-empty — each
entry's analysis being the review's `original_analysis` with the review
object itself as fallback — ignoring `basic_analysis` entirely;
`basic_analysis` is used only when `detailed_reviews` is absent or empty;
a null result or one with neither array yields the empty collection. -/
theorem c10_files_collection_precedence :
    (getFilesCollection none = []) ∧
    (∀ (res : AnalysisResult) (revs : List GeminiReview),
      res.detailed_reviews = some revs → revs ≠ [] →
      getFilesCollection (some res) =
        revs.map (fun r => { analysis := reviewToView r, review := some r })) ∧
    (∀ (res : AnalysisResult) (revs : List GeminiReview) (ba : Option (List BasicCryptoAnalysis)),
      res.detailed_reviews = some revs → revs ≠ [] →
      getFilesCollection (some ⟨res.status, res.total_files, res.crypto_files_found,
        res.message, ba, res.detailed_reviews⟩) = getFilesCollection (some res)) ∧
    (∀ res : AnalysisResult,
      (res.detailed_reviews = none ∨ res.detailed_reviews = some []) →
      getFilesCollection (some res) =
        (res.basic_analysis.getD []).map (fun a => { analysis := .real a, review := none })) ∧
    (∀ res : AnalysisResult,
      (res.detailed_reviews = none ∨ res.detailed_reviews = some []) →
      (res.basic_analysis = none ∨ res.basic_analysis = some []) →
      getFilesCollection (some res) = []) := by
  have main : ∀ (res : AnalysisResult) (revs : List GeminiReview),
      res.detailed_reviews = some revs → revs ≠ [] →
      getFilesCollection (some res) =
        revs.map (fun r => { analysis := reviewToView r, review := some r }) := by
    intro res revs hrev hne
    unfold getFilesCollection
    dsimp only
    rw [hrev]
    rw [if_pos (by simpa using fun hx => hne (by simpa using hx))]
    simp only [Option.getD_some]
    refine List.filter_eq_self.mpr ?_
    intro e he
    obtain ⟨av, rv⟩ := e
    cases av <;> rfl
  have fallback : ∀ res : AnalysisResult,
      (res.detailed_reviews = none ∨ res.detailed_reviews = some []) →
      getFilesCollection (some res) =
        (res.basic_analysis.getD []).map (fun a => { analysis := .real a, review := none }) := by
    intro res hd
    unfold getFilesCollection
    dsimp only
    have hnil : res.detailed_reviews.getD [] = [] := by
      rcases hd with h | h <;> rw [h] <;> rfl
    rw [hnil]
    simp only [List.length_nil, ne_eq, not_true_eq_false, if_false]
    by_cases hb : (res.basic_analysis.getD []).length ≠ 0
    · rw [if_pos hb]
    · push_neg at hb
      have hbn : res.basic_analysis.getD [] = [] := List.eq_nil_of_length_eq_zero hb
      rw [if_neg (by rw [hb]; exact fun hx => hx rfl), hbn]
      rfl
  refine ⟨rfl, main, ?_, fallback, ?_⟩
  · intro res revs ba hrev hne
    rw [main ⟨res.status, res.total_files, res.crypto_files_found, res.message, ba,
      res.detailed_reviews⟩ revs hrev hne, main res revs hrev hne]
  · intro res hd hb
    rw [fallback res hd]
    rcases hb with h | h <;> rw [h] <;> rfl

/-- Witness for C10: a result carrying both a non-empty `basic_analysis`
and a non-empty `detailed_reviews` yields the collection built from the
reviews alone, with the review object as fallback analysis when
`original_analysis` is absent. -/
theorem c10_files_collection_precedence_witness :
    getFilesCollection (some ⟨some "success", some 2, none, none,
        some [⟨"/x.py", "x.py", "py", false, none, none, none, none, none⟩],
        some [⟨some ⟨"/y.py", "y.py", "py", true, none, none, none, none, none⟩, none, none⟩,
          ⟨none, some "narrative only", none⟩]⟩) =
      [{ analysis := .real ⟨"/y.py", "y.py", "py", true, none, none, none, none, none⟩,
         review := some ⟨some ⟨"/y.py", "y.py", "py", true, none, none, none, none, none⟩,
           none, none⟩ },
       { analysis := .castReview ⟨none, some "narrative only", none⟩,
         review := some ⟨none, some "narrative only", none⟩ }] :=
  c10_files_collection_precedence.2.1
    ⟨some "success", some 2, none, none,
      some [⟨"/x.py", "x.py", "py", false, none, none, none, none, none⟩],
      some [⟨some ⟨"/y.py", "y.py", "py", true, none, none, none, none, none⟩, none, none⟩,
        ⟨none, some "narrative only", none⟩]⟩
    [⟨some ⟨"/y.py", "y.py", "py", true, none, none, none, none, none⟩, none, none⟩,
      ⟨none, some "narrative only", none⟩]
    rfl (by decide)

/-! ### Claim C6: progress lifecycle -/

/-- States decompose over trace concatenation. -/
theorem statesAfter_append (cap : ℚ) (l1 l2 : List ProgressEvent) :
    ∀ p : ℚ, statesAfter cap p (l1 ++ l2) =
      statesAfter cap p l1 ++ statesAfter cap (l1.foldl (progressStep cap) p) l2 := by
  induction l1 with
  | nil => intro p; rfl
  | cons e rest ih =>
    intro p
    simp only [List.cons_append, statesAfter, List.foldl_cons]
    exact congrArg (List.cons (progressStep cap p e)) (ih (progressStep cap p e))

/-- While ticks fire, the percentage stays strictly positive and at most
the ceiling. -/
theorem ticks_bounded (cap : ℚ) (rs : List ℚ) :
    ∀ p : ℚ, 0 < p → p ≤ cap → (∀ r ∈ rs, 1 ≤ r ∧ r < 7) →
    ∀ q ∈ statesAfter cap p (rs.map .tick), 0 < q ∧ q ≤ cap := by
  induction rs with
  | nil => intro p _ _ _ q hq; exact absurd hq (List.not_mem_nil q)
  | cons r rest ih =>
    intro p hp hpc hrs q hq
    have hr := hrs r (List.mem_cons_self r rest)
    have hq0 : (0 : ℚ) < min (p + r) cap := lt_min (by linarith [hr.1]) (lt_of_lt_of_le hp hpc)
    rcases List.mem_cons.mp hq with rfl | hq2
    · exact ⟨hq0, min_le_right _ _⟩
    · exact ih (min (p + r) cap) hq0 (min_le_right _ _)
        (fun x hx => hrs x (List.mem_cons_of_mem r hx)) q hq2

/-- Claim C6: for each of the three ingestion pages (ceilings 90, 92,
98), the percentage never reaches 100 (nor returns to 0) while the
request is outstanding, is set to exactly 100 exactly once when the
request resolves — success or failure alike, since the `finally` block
runs either way — and returns to 0 only when the completion display
window elapses, which ends the trace. -/
theorem c6_progress_lifecycle (cap : ℚ) (rs : List ℚ)
    (hcap : cap = 90 ∨ cap = 92 ∨ cap = 98)
    (hrs : ∀ r ∈ rs, 1 ≤ r ∧ r < 7) :
    statesAfter cap 0 (ingestTrace rs) =
      statesAfter cap 0 (.start :: rs.map .tick) ++ [100, 0] ∧
    (∀ q ∈ statesAfter cap 0 (.start :: rs.map .tick), 0 < q ∧ q < 100) ∧
    (statesAfter cap 0 (ingestTrace rs)).count 100 = 1 := by
  have hcap1 : (1 : ℚ) ≤ cap := by rcases hcap with h | h | h <;> rw [h] <;> norm_num
  have hcap100 : cap < 100 := by rcases hcap with h | h | h <;> rw [h] <;> norm_num
  have hsplit : statesAfter cap 0 (ingestTrace rs) =
      statesAfter cap 0 (.start :: rs.map .tick) ++ [100, 0] := by
    have : ingestTrace rs = (.start :: rs.map .tick) ++ [.finish, .windowElapsed] := by
      simp [ingestTrace]
    rw [this, statesAfter_append]
    rfl
  have hpend : ∀ q ∈ statesAfter cap 0 (.start :: rs.map .tick), 0 < q ∧ q < 100 := by
    intro q hq
    have hstates : statesAfter cap 0 (.start :: rs.map .tick) =
        1 :: statesAfter cap 1 (rs.map .tick) := rfl
    rw [hstates] at hq
    rcases List.mem_cons.mp hq with rfl | hq2
    · norm_num
    · have h := ticks_bounded cap rs 1 (by norm_num) hcap1 hrs q hq2
      exact ⟨h.1, lt_of_le_of_lt h.2 hcap100⟩
  refine ⟨hsplit, hpend, ?_⟩
  rw [hsplit, List.count_append]
  have hzero : (statesAfter cap 0 (.start :: rs.map .tick)).count 100 = 0 := by
    refine List.count_eq_zero.mpr (fun hmem => ?_)
    exact absurd rfl (ne_of_lt (hpend 100 hmem).2)
  rw [hzero]
  rfl

/-- Witness for C6: the home page's ceiling 90 with two interval ticks of
3 and 6; the full state sequence is `[1, 4, 10, 100, 0]` and 100 appears
exactly once. -/
theorem c6_progress_lifecycle_witness :
    (statesAfter 90 0 (ingestTrace [3, 6])).count 100 = 1 :=
  (c6_progress_lifecycle 90 [3, 6] (Or.inl rfl)
    (by intro r hr; rcases List.mem_cons.mp hr with rfl | hr2
        · norm_num
        · rcases List.mem_cons.mp hr2 with rfl | hr3
          · norm_num
          · exact absurd hr3 (List.not_mem_nil r))).2.2

/-! ### Claim C9: file/folder children invariant -/

/-- Adding a pending good node keeps an open folder's children good. -/
theorem addChild_good (o : OpenFolder) (pending : Option TreeNode)
    (ho : ∀ c ∈ o.children, GoodNode c) (hp : ∀ n, pending = some n → GoodNode n) :
    ∀ c ∈ (o.addChild pending).children, GoodNode c := by
  cases pending with
  | none => exact ho
  | some n =>
    intro c hc
    rcases List.mem_append.mp hc with h | h
    · exact ho c h
    · rw [List.mem_singleton.mp h]
      exact hp n rfl

/-- The pop loop preserves goodness of the forest and of every open
folder's children. -/
theorem popLoop_good (stack : List OpenFolder) :
    ∀ (lvl : Nat) (roots : List TreeNode) (pending : Option TreeNode),
    (∀ t ∈ roots, GoodNode t) → (∀ n, pending = some n → GoodNode n) →
    (∀ o ∈ stack, ∀ c ∈ o.children, GoodNode c) →
    (∀ t ∈ (popLoop lvl roots pending stack).1, GoodNode t) ∧
    (∀ o ∈ (popLoop lvl roots pending stack).2, ∀ c ∈ o.children, GoodNode c) := by
  induction stack with
  | nil =>
    intro lvl roots pending hr hp _
    refine ⟨?_, by simp [popLoop]⟩
    intro t ht
    simp only [popLoop] at ht
    cases pending with
    | none => exact hr t ht
    | some n =>
      rcases List.mem_append.mp ht with h | h
      · exact hr t h
      · rw [List.mem_singleton.mp h]
        exact hp n rfl
  | cons top rest ih =>
    intro lvl roots pending hr hp hs
    have htop2 : ∀ c ∈ (top.addChild pending).children, GoodNode c :=
      addChild_good top pending (hs top (List.mem_cons_self top rest)) hp
    simp only [popLoop]
    by_cases h : lvl ≤ (top.addChild pending).level
    · rw [if_pos h]
      refine ih lvl roots (some (top.addChild pending).toNode) hr ?_
        (fun o ho => hs o (List.mem_cons_of_mem top ho))
      intro n hn
      rw [← Option.some_inj.mp hn]
      exact GoodNode.folder _ _ _ _ _ htop2
    · rw [if_neg h]
      refine ⟨hr, ?_⟩
      intro o ho
      rcases List.mem_cons.mp ho with rfl | ho2
      · exact htop2
      · exact hs o (List.mem_cons_of_mem top ho2)

/-- One builder step preserves goodness of the state. -/
theorem stepEntry_good (st : List TreeNode × List OpenFolder) (e : Entry)
    (hr : ∀ t ∈ st.1, GoodNode t)
    (hs : ∀ o ∈ st.2, ∀ c ∈ o.children, GoodNode c) :
    (∀ t ∈ (stepEntry st e).1, GoodNode t) ∧
    (∀ o ∈ (stepEntry st e).2, ∀ c ∈ o.children, GoodNode c) := by
  obtain ⟨roots, stack⟩ := st
  have hpop := popLoop_good stack e.level roots none hr (fun n hn => by cases hn) hs
  unfold stepEntry
  cases hty : e.ty with
  | file =>
    dsimp only
    rcases hstk : (popLoop e.level roots none stack).2 with _ | ⟨p, rest⟩
    · rw [hstk] at hpop
      refine ⟨?_, by simp⟩
      intro t ht
      rcases List.mem_append.mp ht with h | h
      · exact hpop.1 t h
      · rw [List.mem_singleton.mp h]
        exact GoodNode.file _ _ _ _
    · rw [hstk] at hpop
      refine ⟨hpop.1, ?_⟩
      intro o ho
      rcases List.mem_cons.mp ho with rfl | ho2
      · intro c hc
        rcases List.mem_append.mp hc with h | h
        · exact hpop.2 p (List.mem_cons_self p rest) c h
        · rw [List.mem_singleton.mp h]
          exact GoodNode.file _ _ _ _
      · exact hpop.2 o (List.mem_cons_of_mem p ho2)
  | folder =>
    dsimp only
    refine ⟨hpop.1, ?_⟩
    intro o ho
    rcases List.mem_cons.mp ho with rfl | ho2
    · intro c hc
      exact absurd hc (List.not_mem_nil c)
    · exact hpop.2 o ho2

/-- Folding the builder steps preserves goodness. -/
theorem foldl_stepEntry_good (entries : List Entry) :
    ∀ (st : List TreeNode × List OpenFolder),
    (∀ t ∈ st.1, GoodNode t) →
    (∀ o ∈ st.2, ∀ c ∈ o.children, GoodNode c) →
    (∀ t ∈ (entries.foldl stepEntry st).1, GoodNode t) ∧
    (∀ o ∈ (entries.foldl stepEntry st).2, ∀ c ∈ o.children, GoodNode c) := by
  induction entries with
  | nil => intro st hr hs; exact ⟨hr, hs⟩
  | cons e rest ih =>
    intro st hr hs
    rw [List.foldl_cons]
    have h := stepEntry_good st e hr hs
    exact ih (stepEntry st e) h.1 h.2

/-- Membership after an insertion-sort step. -/
theorem mem_insertSorted (x y : TreeNode) (l : List TreeNode) :
    x ∈ insertSorted y l → x = y ∨ x ∈ l := by
  induction l with
  | nil => intro h; exact Or.inl (List.mem_singleton.mp h)
  | cons z rest ih =>
    intro h
    by_cases hc : strLe y.name z.name
    · simp only [insertSorted, if_pos hc] at h
      rcases List.mem_cons.mp h with rfl | h2
      · exact Or.inl rfl
      · exact Or.inr h2
    · simp only [insertSorted, if_neg hc] at h
      rcases List.mem_cons.mp h with rfl | h2
      · exact Or.inr (List.mem_cons_self x rest)
      · rcases ih h2 with h3 | h3
        · exact Or.inl h3
        · exact Or.inr (List.mem_cons_of_mem z h3)

/-- Sorting does not add nodes. -/
theorem mem_sortNodes (x : TreeNode) (l : List TreeNode) :
    x ∈ sortNodes l → x ∈ l := by
  induction l with
  | nil => intro h; exact h
  | cons y rest ih =>
    intro h
    rcases mem_insertSorted x y (sortNodes rest) h with rfl | h2
    · exact List.mem_cons_self x rest
    · exact List.mem_cons_of_mem y (ih h2)

mutual
/-- Every node the trie conversion produces satisfies the children
invariant. -/
theorem trie_toNode_good : ∀ (t : Trie) (lvl : Nat), GoodNode (t.toNode lvl)
  | .mk n p ty cs, lvl => by
    cases ty with
    | file => exact GoodNode.file n p lvl none
    | folder =>
      refine GoodNode.folder n p lvl none _ ?_
      intro c hc
      exact trieL_toNodesRaw_good cs (lvl + 1) c (mem_sortNodes c _ hc)
/-- Every node of a converted children record satisfies the children
invariant. -/
theorem trieL_toNodesRaw_good : ∀ (cs : TrieL) (lvl : Nat),
    ∀ x ∈ cs.toNodesRaw lvl, GoodNode x
  | .nil, _ => by intro x hx; exact absurd hx (List.not_mem_nil x)
  | .cons t rest, lvl => by
    intro x hx
    rcases List.mem_cons.mp hx with rfl | h2
    · exact trie_toNode_good t lvl
    · exact trieL_toNodesRaw_good rest lvl x h2
end

/-- Claim C9: every `TreeNode` produced by either builder satisfies, at
every depth, that `file` nodes have no `children` field and `folder`
nodes have a (possibly empty) `children` sequence. -/
theorem c9_children_invariant :
    (∀ (entries : List Entry) (t : TreeNode), t ∈ buildTree entries → GoodNode t) ∧
    (∀ (paths : List String) (t : TreeNode), t ∈ buildTreeFromFilePaths paths → GoodNode t) := by
  constructor
  · intro entries t ht
    unfold buildTree at ht
    rw [closeStack_eq_popLoop] at ht
    have hfold := foldl_stepEntry_good entries ([], [])
      (fun x hx => absurd hx (List.not_mem_nil x))
      (fun o ho => absurd ho (List.not_mem_nil o))
    have hpop := popLoop_good (entries.foldl stepEntry ([], [])).2 0
      (entries.foldl stepEntry ([], [])).1 none hfold.1 (fun n hn => by cases hn) hfold.2
    exact hpop.1 t ht
  · intro paths t ht
    exact trieL_toNodesRaw_good (buildTrie paths) 0 t (mem_sortNodes t _ ht)

/-- Witness for C9: the invariant applied to the tree built from one
file entry. -/
theorem c9_children_invariant_witness :
    GoodNode (.mk "a" "/a" .file 0 none none) :=
  c9_children_invariant.1 [⟨.file, "a", "/a", 0, none⟩] (.mk "a" "/a" .file 0 none none)
    (List.mem_singleton.mpr rfl)

/-! ### Claim C3: the path-based builder

The development below shows (i) children are sorted lexicographically at
every level, and (ii) the output is invariant under permutation of the
input paths provided no path's segment sequence is a proper prefix of
another's — the amendment forced by `c3_counterexample`. -/

/-- Totality of the code-point comparison. -/
theorem lexLe_total (a : List Char) : ∀ b, lexLe a b = true ∨ lexLe b a = true := by
  induction a with
  | nil => intro b; exact Or.inl rfl
  | cons x xs ih =>
    intro b
    cases b with
    | nil => exact Or.inr rfl
    | cons y ys =>
      rcases Nat.lt_trichotomy x.toNat y.toNat with h | h | h
      · exact Or.inl (by simp [lexLe, h])
      · have hxy : ¬ x.toNat < y.toNat := by omega
        have hyx : ¬ y.toNat < x.toNat := by omega
        rcases ih ys with h2 | h2
        · exact Or.inl (by simp [lexLe, hxy, hyx, h2])
        · exact Or.inr (by simp [lexLe, hxy, hyx, h2])
      · exact Or.inr (by simp [lexLe, h])

/-- Transitivity of the code-point comparison. -/
theorem lexLe_trans (a : List Char) :
    ∀ b c, lexLe a b = true → lexLe b c = true → lexLe a c = true := by
  induction a with
  | nil => intro b c _ _; rfl
  | cons x xs ih =>
    intro b c hab hbc
    cases b with
    | nil => exact absurd hab (by simp [lexLe])
    | cons y ys =>
      cases c with
      | nil => exact absurd hbc (by simp [lexLe])
      | cons z zs =>
        simp only [lexLe] at hab hbc ⊢
        rcases Nat.lt_trichotomy x.toNat y.toNat with h1 | h1 | h1
        · rcases Nat.lt_trichotomy y.toNat z.toNat with h2 | h2 | h2
          · simp [show x.toNat < z.toNat by omega]
          · simp [show x.toNat < z.toNat by omega]
          · rw [if_neg (by omega), if_pos h2] at hbc
            exact absurd hbc (by simp)
        · rcases Nat.lt_trichotomy y.toNat z.toNat with h2 | h2 | h2
          · simp [show x.toNat < z.toNat by omega]
          · rw [if_neg (by omega), if_neg (by omega)] at hab hbc ⊢
            exact ih ys zs hab hbc
          · rw [if_neg (by omega), if_pos h2] at hbc
            exact absurd hbc (by simp)
        · rw [if_neg (by omega), if_pos h1] at hab
          exact absurd hab (by simp)

/-- Antisymmetry of the code-point comparison. -/
theorem lexLe_antisymm (a : List Char) :
    ∀ b, lexLe a b = true → lexLe b a = true → a = b := by
  induction a with
  | nil =>
    intro b _ hba
    cases b with
    | nil => rfl
    | cons y ys => exact absurd hba (by simp [lexLe])
  | cons x xs ih =>
    intro b hab hba
    cases b with
    | nil => exact absurd hab (by simp [lexLe])
    | cons y ys =>
      simp only [lexLe] at hab hba
      rcases Nat.lt_trichotomy x.toNat y.toNat with h1 | h1 | h1
      · rw [if_neg (by omega), if_pos h1] at hba
        exact absurd hba (by simp)
      · rw [if_neg (by omega), if_neg (by omega)] at hab hba
        have hchar : x = y :=
          Char.eq_of_val_eq (UInt32.eq_of_val_eq (Fin.eq_of_val_eq h1))
        rw [hchar, ih ys hab hba]
      · rw [if_neg (by omega), if_pos h1] at hab
        exact absurd hab (by simp)

/-- Totality of the string comparison. -/
theorem strLe_total (a b : String) : strLe a b = true ∨ strLe b a = true :=
  lexLe_total a.data b.data

/-- Transitivity of the string comparison. -/
theorem strLe_trans (a b c : String) (hab : strLe a b = true) (hbc : strLe b c = true) :
    strLe a c = true :=
  lexLe_trans a.data b.data c.data hab hbc

/-- Antisymmetry of the string comparison. -/
theorem strLe_antisymm (a b : String) (hab : strLe a b = true) (hba : strLe b a = true) :
    a = b :=
  String.ext (lexLe_antisymm a.data b.data hab hba)

/-- An insertion-sort step is a permutation. -/
theorem insertSorted_perm (x : TreeNode) (l : List TreeNode) :
    (insertSorted x l).Perm (x :: l) := by
  induction l with
  | nil => exact List.Perm.refl _
  | cons y ys ih =>
    by_cases h : strLe x.name y.name
    · simp only [insertSorted, if_pos h]
      exact List.Perm.refl _
    · simp only [insertSorted, if_neg h]
      exact ((ih.cons y).trans (List.Perm.swap x y ys))

/-- Sorting is a permutation. -/
theorem sortNodes_perm (l : List TreeNode) : (sortNodes l).Perm l := by
  induction l with
  | nil => exact List.Perm.refl _
  | cons x xs ih =>
    exact (insertSorted_perm x (sortNodes xs)).trans (ih.cons x)

/-- An insertion-sort step preserves sortedness by name. -/
theorem insertSorted_sorted (x : TreeNode) (l : List TreeNode)
    (hl : List.Pairwise (fun a b => strLe a.name b.name = true) l) :
    List.Pairwise (fun a b => strLe a.name b.name = true) (insertSorted x l) := by
  induction l with
  | nil => exact List.pairwise_singleton _ x
  | cons y ys ih =>
    rcases List.pairwise_cons.mp hl with ⟨hy, hys⟩
    by_cases h : strLe x.name y.name
    · simp only [insertSorted, if_pos h]
      refine List.pairwise_cons.mpr ⟨?_, hl⟩
      intro z hz
      rcases List.mem_cons.mp hz with rfl | hz2
      · exact h
      · exact strLe_trans _ _ _ h (hy z hz2)
    · simp only [insertSorted, if_neg h]
      refine List.pairwise_cons.mpr ⟨?_, ih hys⟩
      intro z hz
      rcases mem_insertSorted z x ys hz with rfl | hz2
      · rcases strLe_total z.name y.name with h2 | h2
        · exact absurd h2 h
        · exact h2
      · exact hy z hz2

/-- Sorted output of `sortNodes`. -/
theorem sortNodes_sorted (l : List TreeNode) :
    List.Pairwise (fun a b => strLe a.name b.name = true) (sortNodes l) := by
  induction l with
  | nil => exact List.Pairwise.nil
  | cons x xs ih => exact insertSorted_sorted x (sortNodes xs) ih

/-- Two sorted permutations of the same string list are equal. -/
theorem strings_sorted_perm_eq (n1 n2 : List String) (hp : n1.Perm n2)
    (h1 : List.Pairwise (fun a b => strLe a b = true) n1)
    (h2 : List.Pairwise (fun a b => strLe a b = true) n2) : n1 = n2 :=
  @List.eq_of_perm_of_sorted String (fun a b => strLe a b = true)
    ⟨fun a b hab hba => strLe_antisymm a b hab hba⟩ n1 n2 hp h1 h2

/-- Node lists with equal name sequences whose same-named members agree
are equal. -/
theorem nodes_eq_of_names_eq (l1 : List TreeNode) :
    ∀ l2 : List TreeNode, l1.map TreeNode.name = l2.map TreeNode.name →
    (∀ a ∈ l1, ∀ b ∈ l2, a.name = b.name → a = b) → l1 = l2 := by
  induction l1 with
  | nil =>
    intro l2 hn _
    cases l2 with
    | nil => rfl
    | cons b bs => exact absurd hn (by simp)
  | cons a as ih =>
    intro l2 hn hab
    cases l2 with
    | nil => exact absurd hn (by simp)
    | cons b bs =>
      simp only [List.map_cons, List.cons.injEq] at hn
      have hab1 : a = b :=
        hab a (List.mem_cons_self a as) b (List.mem_cons_self b bs) hn.1
      rw [hab1, ih bs hn.2 (fun x hx y hy hxy =>
        hab x (List.mem_cons_of_mem a hx) y (List.mem_cons_of_mem b hy) hxy)]

/-- List-style induction principle for children records (the mutual
recursor specialised to recursion on the record spine only). -/
@[elab_as_elim]
theorem TrieL.indL {motive : TrieL → Prop} (nil : motive .nil)
    (cons : ∀ (t : Trie) (rest : TrieL), motive rest → motive (.cons t rest)) :
    ∀ cs, motive cs
  | .nil => nil
  | .cons t rest => cons t rest (TrieL.indL nil cons rest)

/-- Conversion preserves the node name. -/
theorem toNode_name (t : Trie) (lvl : Nat) : (t.toNode lvl).name = t.name := by
  obtain ⟨n, p, ty, cs⟩ := t
  cases ty <;> rfl

/-- The names of a converted children record are its keys, in order. -/
theorem toNodesRaw_names (cs : TrieL) (lvl : Nat) :
    (cs.toNodesRaw lvl).map TreeNode.name = cs.names := by
  induction cs using TrieL.indL with
  | nil => rfl
  | cons t rest ih =>
    simp only [TrieL.toNodesRaw, List.map_cons, TrieL.names, toNode_name, ih]

/-- Every converted node comes from a trie child. -/
theorem mem_toNodesRaw (cs : TrieL) (lvl : Nat) (x : TreeNode) :
    x ∈ cs.toNodesRaw lvl → ∃ t, t ∈ cs.toList ∧ x = t.toNode lvl := by
  induction cs using TrieL.indL with
  | nil => intro h; exact absurd h (List.not_mem_nil x)
  | cons t rest ih =>
    intro h
    rcases List.mem_cons.mp h with rfl | h2
    · exact ⟨t, List.mem_cons_self t rest.toList, rfl⟩
    · rcases ih h2 with ⟨u, hu, hx⟩
      exact ⟨u, List.mem_cons_of_mem t hu, hx⟩

/-- A successful lookup returns a child with the queried name. -/
theorem lookup_some (cs : TrieL) (k : String) (t : Trie) :
    cs.lookup k = some t → t.name = k ∧ t ∈ cs.toList := by
  induction cs using TrieL.indL with
  | nil => intro h; cases h
  | cons u rest ih =>
    intro h
    by_cases hu : u.name = k
    · rw [TrieL.lookup, if_pos hu] at h
      obtain rfl : u = t := Option.some_inj.mp h
      exact ⟨hu, List.mem_cons_self _ _⟩
    · rw [TrieL.lookup, if_neg hu] at h
      rcases ih h with ⟨h1, h2⟩
      exact ⟨h1, List.mem_cons_of_mem u h2⟩

/-- A key in the record's names has a child. -/
theorem lookup_isSome_of_mem_names (cs : TrieL) (k : String) :
    k ∈ cs.names → ∃ t, cs.lookup k = some t := by
  induction cs using TrieL.indL with
  | nil => intro h; exact absurd h (List.not_mem_nil k)
  | cons u rest ih =>
    intro h
    by_cases hu : u.name = k
    · exact ⟨u, by rw [TrieL.lookup, if_pos hu]⟩
    · rcases List.mem_cons.mp h with h2 | h2
      · exact absurd h2.symm hu
      · rcases ih h2 with ⟨t, ht⟩
        exact ⟨t, by rw [TrieL.lookup, if_neg hu, ht]⟩

/-- A key outside the record's names has no child. -/
theorem lookup_eq_none_of_not_mem (cs : TrieL) (k : String) :
    k ∉ cs.names → cs.lookup k = none := by
  induction cs using TrieL.indL with
  | nil => intro _; rfl
  | cons u rest ih =>
    intro h
    rw [TrieL.names, List.mem_cons] at h
    push_neg at h
    rw [TrieL.lookup, if_neg (fun hu => h.1 hu.symm)]
    exact ih h.2

/-- A key with a child is among the names. -/
theorem mem_names_of_lookup_some (cs : TrieL) (k : String) (t : Trie)
    (h : cs.lookup k = some t) : k ∈ cs.names := by
  by_contra hk
  rw [lookup_eq_none_of_not_mem cs k hk] at h
  cases h

/-- A child's name is among the record's names. -/
theorem name_mem_names_of_mem_toList (cs : TrieL) (t : Trie) :
    t ∈ cs.toList → t.name ∈ cs.names := by
  induction cs using TrieL.indL with
  | nil => intro h; exact absurd h (List.not_mem_nil t)
  | cons u rest ih =>
    intro h
    rcases List.mem_cons.mp h with rfl | h2
    · exact List.mem_cons_self t.name rest.names
    · exact List.mem_cons_of_mem u.name (ih h2)

/-- Children are smaller than their record. -/
theorem sizeOf_lt_of_mem_toList (cs : TrieL) (t : Trie) :
    t ∈ cs.toList → sizeOf t < sizeOf cs := by
  induction cs using TrieL.indL with
  | nil => intro h; exact absurd h (List.not_mem_nil t)
  | cons u rest ih =>
    intro h
    rcases List.mem_cons.mp h with rfl | h2
    · simp only [TrieL.cons.sizeOf_spec]
      omega
    · have := ih h2
      simp only [TrieL.cons.sizeOf_spec]
      omega

/-- Replacing a child under its own name preserves the name sequence. -/
theorem names_setNamed (cs : TrieL) (k : String) (v : Trie) (hv : v.name = k) :
    (cs.setNamed k v).names = cs.names := by
  induction cs using TrieL.indL with
  | nil => rfl
  | cons u rest ih =>
    by_cases hu : u.name = k
    · rw [TrieL.setNamed, if_pos hu, TrieL.names, TrieL.names, hv, hu]
    · rw [TrieL.setNamed, if_neg hu, TrieL.names, TrieL.names, ih]

/-- Looking up the replaced key yields the new child. -/
theorem lookup_setNamed_self (cs : TrieL) (k : String) (v : Trie)
    (hv : v.name = k) (hk : k ∈ cs.names) : (cs.setNamed k v).lookup k = some v := by
  induction cs using TrieL.indL with
  | nil => exact absurd hk (List.not_mem_nil k)
  | cons u rest ih =>
    by_cases hu : u.name = k
    · rw [TrieL.setNamed, if_pos hu, TrieL.lookup, if_pos hv]
    · rw [TrieL.names, List.mem_cons] at hk
      rcases hk with hk | hk
      · exact absurd hk.symm hu
      · rw [TrieL.setNamed, if_neg hu, TrieL.lookup, if_neg hu]
        exact ih hk

/-- Replacing one key leaves the lookup of another unchanged. -/
theorem lookup_setNamed_other (cs : TrieL) (k q : String) (v : Trie)
    (hv : v.name = k) (hq : q ≠ k) : (cs.setNamed k v).lookup q = cs.lookup q := by
  induction cs using TrieL.indL with
  | nil => rfl
  | cons u rest ih =>
    by_cases hu : u.name = k
    · have hvq : ¬ v.name = q := by rw [hv]; exact fun hh => hq hh.symm
      have huq : ¬ u.name = q := by rw [hu]; exact fun hh => hq hh.symm
      rw [TrieL.setNamed, if_pos hu, TrieL.lookup, if_neg hvq, TrieL.lookup, if_neg huq]
    · rw [TrieL.setNamed, if_neg hu, TrieL.lookup, TrieL.lookup, ih]

/-- Replacing the same key twice keeps only the second replacement. -/
theorem setNamed_setNamed_self (cs : TrieL) (k : String) (v1 v2 : Trie)
    (hv1 : v1.name = k) : (cs.setNamed k v1).setNamed k v2 = cs.setNamed k v2 := by
  induction cs using TrieL.indL with
  | nil => rfl
  | cons u rest ih =>
    by_cases hu : u.name = k
    · rw [TrieL.setNamed, if_pos hu, TrieL.setNamed, if_pos hv1, TrieL.setNamed, if_pos hu]
    · rw [TrieL.setNamed, if_neg hu, TrieL.setNamed, if_neg hu, TrieL.setNamed, if_neg hu, ih]

/-- Replacements under different keys commute. -/
theorem setNamed_setNamed_comm (cs : TrieL) (k1 k2 : String) (v1 v2 : Trie)
    (hne : k1 ≠ k2) (hv1 : v1.name = k1) (hv2 : v2.name = k2) :
    (cs.setNamed k1 v1).setNamed k2 v2 = (cs.setNamed k2 v2).setNamed k1 v1 := by
  induction cs using TrieL.indL with
  | nil => rfl
  | cons u rest ih =>
    by_cases h1 : u.name = k1
    · have h2 : ¬ u.name = k2 := by rw [h1]; exact hne
      have hv1k2 : ¬ v1.name = k2 := by rw [hv1]; exact hne
      have hv2k1 : ¬ v2.name = k1 := by rw [hv2]; exact fun hh => hne hh.symm
      rw [TrieL.setNamed, if_pos h1, TrieL.setNamed, if_neg hv1k2,
        TrieL.setNamed, if_neg h2, TrieL.setNamed, if_pos h1]
    · by_cases h2 : u.name = k2
      · have hv2k1 : ¬ v2.name = k1 := by rw [hv2]; exact fun hh => hne hh.symm
        rw [TrieL.setNamed, if_neg h1, TrieL.setNamed, if_pos h2,
          TrieL.setNamed, if_pos h2, TrieL.setNamed, if_neg hv2k1]
      · rw [TrieL.setNamed, if_neg h1, TrieL.setNamed, if_neg h2,
          TrieL.setNamed, if_neg h2, TrieL.setNamed, if_neg h1, ih]

/-- Names after appending a fresh child. -/
theorem names_append (cs : TrieL) (w : Trie) :
    (cs.append w).names = cs.names ++ [w.name] := by
  induction cs using TrieL.indL with
  | nil => rfl
  | cons u rest ih => rw [TrieL.append, TrieL.names, ih]; rfl

/-- Looking up the appended child's fresh name finds it. -/
theorem lookup_append_self (cs : TrieL) (w : Trie) (k : String)
    (hw : w.name = k) (hk : k ∉ cs.names) : (cs.append w).lookup k = some w := by
  induction cs using TrieL.indL with
  | nil => rw [TrieL.append, TrieL.lookup, if_pos hw]
  | cons u rest ih =>
    rw [TrieL.names, List.mem_cons] at hk
    push_neg at hk
    rw [TrieL.append, TrieL.lookup, if_neg (fun hh => hk.1 hh.symm)]
    exact ih hk.2

/-- Appending a child leaves other lookups unchanged. -/
theorem lookup_append_other (cs : TrieL) (w : Trie) (q : String)
    (hw : ¬ w.name = q) : (cs.append w).lookup q = cs.lookup q := by
  induction cs using TrieL.indL with
  | nil => simp only [TrieL.append, TrieL.lookup, if_neg hw]
  | cons u rest ih =>
    simp only [TrieL.append, TrieL.lookup, ih]

/-- Appending and replacing a different key commute. -/
theorem setNamed_append_comm (cs : TrieL) (w v : Trie) (k : String)
    (hw : ¬ w.name = k) : (cs.append w).setNamed k v = (cs.setNamed k v).append w := by
  induction cs using TrieL.indL with
  | nil => simp only [TrieL.append, TrieL.setNamed, if_neg hw]
  | cons u rest ih =>
    by_cases hu : u.name = k
    · simp only [TrieL.append, TrieL.setNamed, if_pos hu]
    · simp only [TrieL.append, TrieL.setNamed, if_neg hu, ih]

/-- Replacing the key of a just-appended child rewrites that child. -/
theorem setNamed_append_self (cs : TrieL) (w v : Trie) (k : String)
    (hw : w.name = k) (hk : k ∉ cs.names) :
    (cs.append w).setNamed k v = cs.append v := by
  induction cs using TrieL.indL with
  | nil => rw [TrieL.append, TrieL.setNamed, if_pos hw]; rfl
  | cons u rest ih =>
    rw [TrieL.names, List.mem_cons] at hk
    push_neg at hk
    rw [TrieL.append, TrieL.setNamed, if_neg (fun hh => hk.1 hh.symm), TrieL.append, ih hk.2]

/-- Unfolding of well-formedness at a cons cell. -/
theorem wfb_cons_iff (t : Trie) (rest : TrieL) :
    (TrieL.cons t rest).wfb = true ↔
      t.name ∉ rest.names ∧ t.wfb = true ∧ rest.wfb = true := by
  show (!(rest.names.contains t.name) && t.wfb && rest.wfb) = true ↔ _
  rw [Bool.and_eq_true, Bool.and_eq_true, Bool.not_eq_true']
  constructor
  · rintro ⟨⟨hc, h1⟩, h2⟩
    refine ⟨fun hmem => ?_, h1, h2⟩
    have hc2 : rest.names.elem t.name = false := hc
    rw [List.elem_iff.mpr hmem] at hc2
    cases hc2
  · rintro ⟨hc, h1, h2⟩
    refine ⟨⟨?_, h1⟩, h2⟩
    by_cases hb : rest.names.elem t.name = true
    · exact absurd (List.elem_iff.mp hb) hc
    · exact Bool.eq_false_iff.mpr hb

/-- Every child of a well-formed record is well-formed. -/
theorem wfb_of_mem_toList (cs : TrieL) (t : Trie) :
    cs.wfb = true → t ∈ cs.toList → t.wfb = true := by
  induction cs using TrieL.indL with
  | nil => intro _ h; exact absurd h (List.not_mem_nil t)
  | cons u rest ih =>
    intro hw h
    rcases (wfb_cons_iff u rest).mp hw with ⟨_, h1, h2⟩
    rcases List.mem_cons.mp h with rfl | h3
    · exact h1
    · exact ih h2 h3

/-- In a well-formed record, every child is found under its name. -/
theorem lookup_of_mem_toList_wfb (cs : TrieL) (t : Trie) :
    cs.wfb = true → t ∈ cs.toList → cs.lookup t.name = some t := by
  induction cs using TrieL.indL with
  | nil => intro _ h; exact absurd h (List.not_mem_nil t)
  | cons u rest ih =>
    intro hw h
    rcases (wfb_cons_iff u rest).mp hw with ⟨hn, _, h2⟩
    rcases List.mem_cons.mp h with rfl | h3
    · rw [TrieL.lookup, if_pos rfl]
    · have hne : ¬ u.name = t.name := by
        intro hh
        exact hn (hh ▸ name_mem_names_of_mem_toList rest t h3)
      rw [TrieL.lookup, if_neg hne]
      exact ih h2 h3

/-- A key with no child is not among the names. -/
theorem not_mem_names_of_lookup_none (cs : TrieL) (k : String)
    (h : cs.lookup k = none) : k ∉ cs.names := by
  intro hmem
  rcases lookup_isSome_of_mem_names cs k hmem with ⟨t, ht⟩
  rw [ht] at h
  cases h

/-- Replacing a child by a well-formed child with the same name preserves
well-formedness. -/
theorem setNamed_wfb (cs : TrieL) (k : String) (v : Trie)
    (hv : v.name = k) : cs.wfb = true → v.wfb = true → (cs.setNamed k v).wfb = true := by
  induction cs using TrieL.indL with
  | nil => intro h _; exact h
  | cons u rest ih =>
    intro hw hvw
    rcases (wfb_cons_iff u rest).mp hw with ⟨hn, h1, h2⟩
    by_cases hu : u.name = k
    · rw [TrieL.setNamed, if_pos hu]
      exact (wfb_cons_iff v rest).mpr ⟨by rw [hv, ← hu]; exact hn, hvw, h2⟩
    · rw [TrieL.setNamed, if_neg hu]
      refine (wfb_cons_iff u _).mpr ⟨?_, h1, ih h2 hvw⟩
      rw [names_setNamed rest k v hv]
      exact hn

/-- Appending a well-formed child under a fresh name preserves
well-formedness. -/
theorem append_wfb (cs : TrieL) (w : Trie) :
    cs.wfb = true → w.wfb = true → w.name ∉ cs.names → (cs.append w).wfb = true := by
  induction cs using TrieL.indL with
  | nil =>
    intro _ hw _
    exact (wfb_cons_iff w .nil).mpr ⟨List.not_mem_nil _, hw, rfl⟩
  | cons u rest ih =>
    intro hcs hw hn
    rcases (wfb_cons_iff u rest).mp hcs with ⟨h0, h1, h2⟩
    rw [TrieL.names, List.mem_cons] at hn
    push_neg at hn
    refine (wfb_cons_iff u _).mpr ⟨?_, h1, ih h2 hw hn.2⟩
    rw [names_append]
    intro hmem
    rcases List.mem_append.mp hmem with h3 | h3
    · exact h0 h3
    · exact hn.1 (List.mem_singleton.mp h3).symm

/-- Insertion preserves well-formedness. -/
theorem insertSegs_wfb (segs : List String) :
    ∀ (agg : String) (cs : TrieL), cs.wfb = true → (insertSegs cs agg segs).wfb = true := by
  induction segs with
  | nil => intro agg cs h; exact h
  | cons s rest ih =>
    intro agg cs h
    simp only [insertSegs]
    rcases hl : cs.lookup s with _ | t
    · exact append_wfb cs _ h (ih _ .nil rfl) (not_mem_names_of_lookup_none cs s hl)
    · rcases lookup_some cs s t hl with ⟨hname, hmem⟩
      have htw : t.wfb = true := wfb_of_mem_toList cs t h hmem
      obtain ⟨n, p, ty, d⟩ := t
      exact setNamed_wfb cs s _ hname h (ih _ d htw)

/-- The trie built from any path list is well-formed. -/
theorem buildTrie_wfb (paths : List String) : (buildTrie paths).wfb = true := by
  have h : ∀ (ps : List String) (cs : TrieL), cs.wfb = true →
      (ps.foldl (fun cs full => insertSegs cs "" (pathSegs full)) cs).wfb = true := by
    intro ps
    induction ps with
    | nil => intro cs h; exact h
    | cons p rest ih =>
      intro cs h
      rw [List.foldl_cons]
      exact ih _ (insertSegs_wfb (pathSegs p) "" cs h)
  exact h paths .nil rfl

mutual
/-- Reflexivity of trie equivalence. -/
theorem trieEquiv_refl : ∀ t : Trie, TrieEquiv t t
  | .mk n p ty cs =>
    TrieEquiv.intro n p ty cs cs
      (TrieLEquiv.intro cs cs (List.Perm.refl _)
        (fun k t1 t2 h1 h2 => by
          obtain rfl : t1 = t2 := by rw [h1] at h2; exact Option.some_inj.mp h2
          exact trieEquiv_refl_mem cs t1 (lookup_some cs k t1 h1).2))
/-- Reflexivity of trie equivalence for every child of a record. -/
theorem trieEquiv_refl_mem : ∀ (cs : TrieL) (t : Trie), t ∈ cs.toList → TrieEquiv t t
  | .nil, t, h => absurd h (List.not_mem_nil t)
  | .cons u rest, t, h => by
    rcases List.mem_cons.mp h with heq | h2
    · rw [heq]
      exact trieEquiv_refl u
    · exact trieEquiv_refl_mem rest t h2
end

/-- Reflexivity of record equivalence. -/
theorem trieLEquiv_refl (cs : TrieL) : TrieLEquiv cs cs :=
  TrieLEquiv.intro cs cs (List.Perm.refl _)
    (fun k t1 t2 h1 h2 => by
      obtain rfl : t1 = t2 := by rw [h1] at h2; exact Option.some_inj.mp h2
      exact trieEquiv_refl_mem cs t1 (lookup_some cs k t1 h1).2)

/-- Symmetry of record equivalence (strong induction on size). -/
theorem trieLEquiv_symm_aux : ∀ N : Nat, ∀ cs1 cs2 : TrieL, sizeOf cs1 ≤ N →
    TrieLEquiv cs1 cs2 → TrieLEquiv cs2 cs1 := by
  intro N
  induction N using Nat.strong_induction_on with
  | _ N ih =>
    intro cs1 cs2 hsz h
    rcases h with ⟨_, _, hperm, hlook⟩
    refine TrieLEquiv.intro cs2 cs1 hperm.symm ?_
    intro k t2 t1 h2 h1
    have he := hlook k t1 t2 h1 h2
    rcases he with ⟨n, p, ty, d1, d2, hl⟩
    refine TrieEquiv.intro n p ty d2 d1 ?_
    have hmem := (lookup_some cs1 k _ h1).2
    have hs1 : sizeOf (Trie.mk n p ty d1) < sizeOf cs1 :=
      sizeOf_lt_of_mem_toList cs1 _ hmem
    have hd : sizeOf d1 < N := by
      have hins : sizeOf d1 < sizeOf (Trie.mk n p ty d1) := by
        simp only [Trie.mk.sizeOf_spec]
        omega
      omega
    exact ih (sizeOf d1) hd d1 d2 le_rfl hl

/-- Symmetry of record equivalence. -/
theorem trieLEquiv_symm (cs1 cs2 : TrieL) (h : TrieLEquiv cs1 cs2) : TrieLEquiv cs2 cs1 :=
  trieLEquiv_symm_aux (sizeOf cs1) cs1 cs2 le_rfl h

/-- Transitivity of record equivalence (strong induction on size). -/
theorem trieLEquiv_trans_aux : ∀ N : Nat, ∀ cs1 cs2 cs3 : TrieL, sizeOf cs1 ≤ N →
    TrieLEquiv cs1 cs2 → TrieLEquiv cs2 cs3 → TrieLEquiv cs1 cs3 := by
  intro N
  induction N using Nat.strong_induction_on with
  | _ N ih =>
    intro cs1 cs2 cs3 hsz h12 h23
    rcases h12 with ⟨_, _, hperm12, hlook12⟩
    rcases h23 with ⟨_, _, hperm23, hlook23⟩
    refine TrieLEquiv.intro cs1 cs3 (hperm12.trans hperm23) ?_
    intro k t1 t3 h1 h3
    have hk2 : k ∈ cs2.names := hperm12.mem_iff.mp (mem_names_of_lookup_some cs1 k t1 h1)
    rcases lookup_isSome_of_mem_names cs2 k hk2 with ⟨t2, h2⟩
    have he12 := hlook12 k t1 t2 h1 h2
    rcases he12 with ⟨n, p, ty, d1, d2, hl12⟩
    have he23 := hlook23 k _ t3 h2 h3
    cases he23 with
    | intro _ _ _ _ d3 hl23 =>
      refine TrieEquiv.intro n p ty d1 d3 ?_
      have hmem := (lookup_some cs1 k _ h1).2
      have hs1 : sizeOf (Trie.mk n p ty d1) < sizeOf cs1 :=
        sizeOf_lt_of_mem_toList cs1 _ hmem
      have hd : sizeOf d1 < N := by
        have hins : sizeOf d1 < sizeOf (Trie.mk n p ty d1) := by
          simp only [Trie.mk.sizeOf_spec]
          omega
        omega
      exact ih (sizeOf d1) hd d1 d2 d3 le_rfl hl12 hl23

/-- Transitivity of record equivalence. -/
theorem trieLEquiv_trans (cs1 cs2 cs3 : TrieL) (h12 : TrieLEquiv cs1 cs2)
    (h23 : TrieLEquiv cs2 cs3) : TrieLEquiv cs1 cs3 :=
  trieLEquiv_trans_aux (sizeOf cs1) cs1 cs2 cs3 le_rfl h12 h23

/-- A key found in the record is still found after an append. -/
theorem lookup_append_found (cs : TrieL) (w : Trie) (q : String) (u : Trie)
    (h : cs.lookup q = some u) : (cs.append w).lookup q = some u := by
  induction cs using TrieL.indL with
  | nil => cases h
  | cons t rest ih =>
    by_cases ht : t.name = q
    · rw [TrieL.lookup, if_pos ht] at h
      rw [TrieL.append, TrieL.lookup, if_pos ht]
      exact h
    · rw [TrieL.lookup, if_neg ht] at h
      rw [TrieL.append, TrieL.lookup, if_neg ht]
      exact ih h

/-- A key missing from the record matches only the appended child. -/
theorem lookup_append_none (cs : TrieL) (w : Trie) (q : String)
    (h : cs.lookup q = none) :
    (cs.append w).lookup q = if w.name = q then some w else none := by
  induction cs using TrieL.indL with
  | nil => rfl
  | cons t rest ih =>
    by_cases ht : t.name = q
    · rw [TrieL.lookup, if_pos ht] at h
      cases h
    · rw [TrieL.lookup, if_neg ht] at h
      rw [TrieL.append, TrieL.lookup, if_neg ht]
      exact ih h

/-- Replacing equivalent children under the same key in equivalent
records yields equivalent records. -/
theorem setNamed_equiv_both (cs1 cs2 : TrieL) (k : String) (v v' : Trie)
    (h : TrieLEquiv cs1 cs2) (he : TrieEquiv v v') (hv : v.name = k) (hv' : v'.name = k)
    (hk1 : k ∈ cs1.names) (hk2 : k ∈ cs2.names) :
    TrieLEquiv (cs1.setNamed k v) (cs2.setNamed k v') := by
  rcases h with ⟨_, _, hperm, hlook⟩
  refine TrieLEquiv.intro _ _ ?_ ?_
  · rw [names_setNamed cs1 k v hv, names_setNamed cs2 k v' hv']
    exact hperm
  · intro q t1 t2 h1 h2
    by_cases hq : q = k
    · rw [hq, lookup_setNamed_self cs1 k v hv hk1] at h1
      rw [hq, lookup_setNamed_self cs2 k v' hv' hk2] at h2
      obtain rfl : v = t1 := Option.some_inj.mp h1
      obtain rfl : v' = t2 := Option.some_inj.mp h2
      exact he
    · rw [lookup_setNamed_other cs1 k q v hv hq] at h1
      rw [lookup_setNamed_other cs2 k q v' hv' hq] at h2
      exact hlook q t1 t2 h1 h2

/-- Appending the same child to equivalent records yields equivalent
records. -/
theorem append_equiv_both (cs1 cs2 : TrieL) (w : Trie) (h : TrieLEquiv cs1 cs2) :
    TrieLEquiv (cs1.append w) (cs2.append w) := by
  rcases h with ⟨_, _, hperm, hlook⟩
  refine TrieLEquiv.intro _ _ ?_ ?_
  · rw [names_append, names_append]
    exact hperm.append_right [w.name]
  · intro q t1 t2 h1 h2
    rcases hc1 : cs1.lookup q with _ | u1
    · have hc2 : cs2.lookup q = none := by
        refine lookup_eq_none_of_not_mem cs2 q (fun hmem => ?_)
        rcases lookup_isSome_of_mem_names cs1 q (hperm.mem_iff.mpr hmem) with ⟨u, hu⟩
        rw [hu] at hc1
        cases hc1
      rw [lookup_append_none cs1 w q hc1] at h1
      rw [lookup_append_none cs2 w q hc2] at h2
      by_cases hw : w.name = q
      · rw [if_pos hw] at h1 h2
        obtain rfl : w = t1 := Option.some_inj.mp h1
        obtain rfl : w = t2 := Option.some_inj.mp h2
        exact trieEquiv_refl w
      · rw [if_neg hw] at h1
        cases h1
    · have hq2 : q ∈ cs2.names :=
        hperm.mem_iff.mp (mem_names_of_lookup_some cs1 q u1 hc1)
      rcases lookup_isSome_of_mem_names cs2 q hq2 with ⟨u2, hc2⟩
      rw [lookup_append_found cs1 w q u1 hc1] at h1
      rw [lookup_append_found cs2 w q u2 hc2] at h2
      obtain rfl : u1 = t1 := Option.some_inj.mp h1
      obtain rfl : u2 = t2 := Option.some_inj.mp h2
      exact hlook q u1 u2 hc1 hc2

/-- Appending two fresh children in either order yields equivalent
records. -/
theorem append_append_equiv (cs : TrieL) (v w : Trie) (hvw : v.name ≠ w.name) :
    TrieLEquiv ((cs.append v).append w) ((cs.append w).append v) := by
  refine TrieLEquiv.intro _ _ ?_ ?_
  · rw [names_append, names_append, names_append, names_append,
      List.append_assoc, List.append_assoc]
    exact List.Perm.append_left cs.names (List.Perm.swap w.name v.name [])
  · intro q t1 t2 h1 h2
    rcases hc : cs.lookup q with _ | u
    · by_cases hv : v.name = q
      · have hw : ¬ w.name = q := by rw [← hv]; exact fun hh => hvw hh.symm
        have e1 : ((cs.append v).append w).lookup q = some v := by
          rw [lookup_append_other _ w q hw, lookup_append_none cs v q hc, if_pos hv]
        have e2 : ((cs.append w).append v).lookup q = some v := by
          rw [lookup_append_none _ v q ?_, if_pos hv]
          rw [lookup_append_none cs w q hc, if_neg hw]
        rw [e1] at h1
        rw [e2] at h2
        obtain rfl : v = t1 := Option.some_inj.mp h1
        obtain rfl : v = t2 := Option.some_inj.mp h2
        exact trieEquiv_refl v
      · by_cases hw : w.name = q
        · have e1 : ((cs.append v).append w).lookup q = some w := by
            rw [lookup_append_none _ w q ?_, if_pos hw]
            rw [lookup_append_none cs v q hc, if_neg hv]
          have e2 : ((cs.append w).append v).lookup q = some w := by
            rw [lookup_append_other _ v q hv, lookup_append_none cs w q hc, if_pos hw]
          rw [e1] at h1
          rw [e2] at h2
          obtain rfl : w = t1 := Option.some_inj.mp h1
          obtain rfl : w = t2 := Option.some_inj.mp h2
          exact trieEquiv_refl w
        · have e1 : ((cs.append v).append w).lookup q = none := by
            rw [lookup_append_none _ w q ?_, if_neg hw]
            rw [lookup_append_none cs v q hc, if_neg hv]
          rw [e1] at h1
          cases h1
    · have e1 : ((cs.append v).append w).lookup q = some u :=
        lookup_append_found _ w q u (lookup_append_found cs v q u hc)
      have e2 : ((cs.append w).append v).lookup q = some u :=
        lookup_append_found _ v q u (lookup_append_found cs w q u hc)
      rw [e1] at h1
      rw [e2] at h2
      obtain rfl : u = t1 := Option.some_inj.mp h1
      obtain rfl : u = t2 := Option.some_inj.mp h2
      exact trieEquiv_refl u

/-- Insertion of the same path into equivalent records yields equivalent
records. -/
theorem insertSegs_equiv (segs : List String) :
    ∀ (agg : String) (cs1 cs2 : TrieL), TrieLEquiv cs1 cs2 →
    TrieLEquiv (insertSegs cs1 agg segs) (insertSegs cs2 agg segs) := by
  induction segs with
  | nil => intro agg cs1 cs2 h; exact h
  | cons s rest ih =>
    intro agg cs1 cs2 h
    have hnames : cs1.names.Perm cs2.names := by
      rcases h with ⟨_, _, hp, _⟩
      exact hp
    rcases hl1 : cs1.lookup s with _ | t1
    · have hn1 : s ∉ cs1.names := not_mem_names_of_lookup_none cs1 s hl1
      have hn2 : s ∉ cs2.names := fun hm => hn1 (hnames.mem_iff.mpr hm)
      have hl2 : cs2.lookup s = none := lookup_eq_none_of_not_mem cs2 s hn2
      simp only [insertSegs]
      rw [hl1, hl2]
      exact append_equiv_both cs1 cs2 _ h
    · have hs1 : s ∈ cs1.names := mem_names_of_lookup_some cs1 s t1 hl1
      have hs2 : s ∈ cs2.names := hnames.mem_iff.mp hs1
      rcases lookup_isSome_of_mem_names cs2 s hs2 with ⟨t2, hl2⟩
      have he : TrieEquiv t1 t2 := by
        rcases h with ⟨_, _, _, hlook⟩
        exact hlook s t1 t2 hl1 hl2
      simp only [insertSegs]
      rw [hl1, hl2]
      rcases he with ⟨n, p, ty, d1, d2, hd⟩
      dsimp only [Trie.name, Trie.path, Trie.ty, Trie.children]
      refine setNamed_equiv_both cs1 cs2 s _ _ h ?_ ?_ ?_ hs1 hs2
      · exact TrieEquiv.intro n p ty _ _ (ih _ d1 d2 hd)
      · exact (lookup_some cs1 s _ hl1).1
      · exact (lookup_some cs2 s _ hl2).1

/-- Appending equivalent children to the same record yields equivalent
records. -/
theorem append_value_equiv (cs : TrieL) (w w2 : Trie) (he : TrieEquiv w w2) :
    TrieLEquiv (cs.append w) (cs.append w2) := by
  obtain ⟨n, p, ty, d, d2, hd⟩ := he
  refine TrieLEquiv.intro _ _ ?_ ?_
  · rw [names_append, names_append]
    exact List.Perm.refl _
  · intro q t1 t2 h1 h2
    rcases hc : cs.lookup q with _ | u
    · rw [lookup_append_none cs _ q hc] at h1 h2
      by_cases hq : n = q
      · rw [if_pos (show (Trie.mk n p ty d).name = q from hq)] at h1
        rw [if_pos (show (Trie.mk n p ty d2).name = q from hq)] at h2
        obtain rfl := Option.some_inj.mp h1
        obtain rfl := Option.some_inj.mp h2
        exact TrieEquiv.intro n p ty d d2 hd
      · rw [if_neg (show ¬ (Trie.mk n p ty d).name = q from hq)] at h1
        cases h1
    · rw [lookup_append_found cs _ q u hc] at h1 h2
      obtain rfl := Option.some_inj.mp h1
      obtain rfl := Option.some_inj.mp h2
      exact trieEquiv_refl u

/-- Specialisation of `lookup_append_self` to a constructor value. -/
theorem lookup_append_self_mk (cs : TrieL) (s p2 : String) (ty : NodeType) (d : TrieL)
    (hn : s ∉ cs.names) :
    (cs.append (Trie.mk s p2 ty d)).lookup s = some (Trie.mk s p2 ty d) :=
  lookup_append_self cs _ s rfl hn

/-- Specialisation of `lookup_append_other` to a constructor value. -/
theorem lookup_append_other_mk (cs : TrieL) (n p2 : String) (ty : NodeType) (d : TrieL)
    (q : String) (hne : ¬ n = q) :
    (cs.append (Trie.mk n p2 ty d)).lookup q = cs.lookup q :=
  lookup_append_other cs _ q hne

/-- Specialisation of `setNamed_append_self` to a constructor value. -/
theorem setNamed_append_self_mk (cs : TrieL) (s p2 : String) (ty : NodeType) (d : TrieL)
    (v : Trie) (hn : s ∉ cs.names) :
    (cs.append (Trie.mk s p2 ty d)).setNamed s v = cs.append v :=
  setNamed_append_self cs _ v s rfl hn

/-- Specialisation of `setNamed_append_comm` to a constructor value. -/
theorem setNamed_append_comm_mk (cs : TrieL) (n p2 : String) (ty : NodeType) (d : TrieL)
    (v : Trie) (k : String) (hne : ¬ n = k) :
    (cs.append (Trie.mk n p2 ty d)).setNamed k v =
      (cs.setNamed k v).append (Trie.mk n p2 ty d) :=
  setNamed_append_comm cs _ v k hne

/-- Specialisation of `lookup_setNamed_self` to a constructor value. -/
theorem lookup_setNamed_self_mk (cs : TrieL) (k p2 : String) (ty : NodeType) (d : TrieL)
    (hk : k ∈ cs.names) :
    (cs.setNamed k (Trie.mk k p2 ty d)).lookup k = some (Trie.mk k p2 ty d) :=
  lookup_setNamed_self cs k _ rfl hk

/-- Specialisation of `lookup_setNamed_other` to a constructor value. -/
theorem lookup_setNamed_other_mk (cs : TrieL) (k p2 : String) (ty : NodeType) (d : TrieL)
    (q : String) (hq : q ≠ k) :
    (cs.setNamed k (Trie.mk k p2 ty d)).lookup q = cs.lookup q :=
  lookup_setNamed_other cs k q _ rfl hq

/-- Specialisation of `setNamed_setNamed_self` to a constructor value. -/
theorem setNamed_setNamed_self_mk (cs : TrieL) (k p2 : String) (ty : NodeType) (d : TrieL)
    (v2 : Trie) :
    (cs.setNamed k (Trie.mk k p2 ty d)).setNamed k v2 = cs.setNamed k v2 :=
  setNamed_setNamed_self cs k _ v2 rfl

/-- Specialisation of `setNamed_setNamed_comm` to constructor values. -/
theorem setNamed_setNamed_comm_mk (cs : TrieL) (k1 pa : String) (tya : NodeType) (da : TrieL)
    (k2 pb : String) (tyb : NodeType) (db : TrieL) (hne : k1 ≠ k2) :
    (cs.setNamed k1 (Trie.mk k1 pa tya da)).setNamed k2 (Trie.mk k2 pb tyb db) =
      (cs.setNamed k2 (Trie.mk k2 pb tyb db)).setNamed k1 (Trie.mk k1 pa tya da) :=
  setNamed_setNamed_comm cs k1 k2 _ _ hne rfl rfl

/-- Inserting two paths in either order yields equivalent tries, provided
neither path's segment sequence is a proper prefix of the other's. -/
theorem insertSegs_comm (x : List String) :
    ∀ (y : List String) (agg : String) (cs : TrieL),
    (x = y ∨ (¬ x <+: y ∧ ¬ y <+: x)) →
    TrieLEquiv (insertSegs (insertSegs cs agg x) agg y)
      (insertSegs (insertSegs cs agg y) agg x) := by
  induction x with
  | nil =>
    intro y agg cs _
    simp only [insertSegs]
    exact trieLEquiv_refl _
  | cons s xr ih =>
    intro y agg cs hcompat
    cases y with
    | nil =>
      simp only [insertSegs]
      exact trieLEquiv_refl _
    | cons u yr =>
      by_cases hsu : s = u
      · subst hsu
        have hcompat2 : xr = yr ∨ (¬ xr <+: yr ∧ ¬ yr <+: xr) := by
          rcases hcompat with heq | ⟨h1, h2⟩
          · injection heq with hh1 hh2
            exact Or.inl hh2
          · refine Or.inr ⟨fun hp => h1 (List.cons_prefix_cons.mpr ⟨rfl, hp⟩),
              fun hp => h2 (List.cons_prefix_cons.mpr ⟨rfl, hp⟩)⟩
        rcases hl : cs.lookup s with _ | t
        · have hn : s ∉ cs.names := not_mem_names_of_lookup_none cs s hl
          have hty : (if xr.isEmpty then NodeType.file else NodeType.folder) =
              (if yr.isEmpty then NodeType.file else NodeType.folder) := by
            rcases hcompat2 with heq | ⟨h1, h2⟩
            · rw [heq]
            · cases xr with
              | nil => exact absurd List.nil_prefix h1
              | cons a as =>
                cases yr with
                | nil => exact absurd List.nil_prefix h2
                | cons b bs => rfl
          simp only [insertSegs]
          rw [hl]
          dsimp only
          rw [lookup_append_self_mk cs s _ _ _ hn, lookup_append_self_mk cs s _ _ _ hn]
          dsimp only [Trie.name, Trie.path, Trie.ty, Trie.children]
          rw [setNamed_append_self_mk cs s _ _ _ _ hn, setNamed_append_self_mk cs s _ _ _ _ hn]
          refine append_value_equiv cs _ _ ?_
          rw [hty]
          exact TrieEquiv.intro s _ _ _ _ (ih yr _ .nil hcompat2)
        · have hs : s ∈ cs.names := mem_names_of_lookup_some cs s t hl
          obtain ⟨n, p, ty, d⟩ := t
          have hname : n = s := (lookup_some cs s _ hl).1
          subst hname
          simp only [insertSegs]
          rw [hl]
          dsimp only [Trie.name, Trie.path, Trie.ty, Trie.children]
          rw [lookup_setNamed_self_mk cs n _ _ _ hs, lookup_setNamed_self_mk cs n _ _ _ hs]
          dsimp only [Trie.name, Trie.path, Trie.ty, Trie.children]
          rw [setNamed_setNamed_self_mk cs n _ _ _ _, setNamed_setNamed_self_mk cs n _ _ _ _]
          refine setNamed_equiv_both cs cs n _ _ (trieLEquiv_refl cs) ?_ rfl rfl hs hs
          exact TrieEquiv.intro n p ty _ _ (ih yr _ d hcompat2)
      · rcases hls : cs.lookup s with _ | ts
        · rcases hlu : cs.lookup u with _ | tu
          · -- both new: two appends in either order
            simp only [insertSegs]
            rw [hls, hlu]
            dsimp only
            rw [lookup_append_other_mk cs s _ _ _ u hsu,
              lookup_append_other_mk cs u _ _ _ s (fun hh => hsu hh.symm), hls, hlu]
            dsimp only
            exact append_append_equiv cs _ _ hsu
          · -- s new, u present
            obtain ⟨nu, pu, tyu, du⟩ := tu
            have hnameu : nu = u := (lookup_some cs u _ hlu).1
            subst hnameu
            simp only [insertSegs]
            rw [hls, hlu]
            dsimp only [Trie.name, Trie.path, Trie.ty, Trie.children]
            rw [lookup_append_other_mk cs s _ _ _ nu hsu,
              lookup_setNamed_other_mk cs nu _ _ _ s (fun hh => hsu hh), hls, hlu]
            dsimp only [Trie.name, Trie.path, Trie.ty, Trie.children]
            rw [setNamed_append_comm_mk cs s _ _ _ _ nu hsu]
            exact trieLEquiv_refl _
        · rcases hlu : cs.lookup u with _ | tu
          · -- s present, u new
            obtain ⟨ns, ps, tys, ds⟩ := ts
            have hnames2 : ns = s := (lookup_some cs s _ hls).1
            subst hnames2
            simp only [insertSegs]
            rw [hls, hlu]
            dsimp only [Trie.name, Trie.path, Trie.ty, Trie.children]
            rw [lookup_setNamed_other_mk cs ns _ _ _ u (fun hh => hsu hh.symm),
              lookup_append_other_mk cs u _ _ _ ns (fun hh => hsu hh.symm), hls, hlu]
            dsimp only [Trie.name, Trie.path, Trie.ty, Trie.children]
            rw [setNamed_append_comm_mk cs u _ _ _ _ ns (fun hh => hsu hh.symm)]
            exact trieLEquiv_refl _
          · -- both present: replacements under different keys commute
            obtain ⟨ns, ps, tys, ds⟩ := ts
            obtain ⟨nu, pu, tyu, du⟩ := tu
            have hnames2 : ns = s := (lookup_some cs s _ hls).1
            have hnameu : nu = u := (lookup_some cs u _ hlu).1
            subst hnames2
            subst hnameu
            simp only [insertSegs]
            rw [hls, hlu]
            dsimp only [Trie.name, Trie.path, Trie.ty, Trie.children]
            rw [lookup_setNamed_other_mk cs ns _ _ _ nu (fun hh => hsu hh.symm),
              lookup_setNamed_other_mk cs nu _ _ _ ns (fun hh => hsu hh), hls, hlu]
            dsimp only [Trie.name, Trie.path, Trie.ty, Trie.children]
            rw [setNamed_setNamed_comm_mk cs ns _ _ _ nu _ _ _ hsu]
            exact trieLEquiv_refl _

/-- The boolean compatibility test implies the propositional side
condition of `insertSegs_comm`. -/
theorem segCompatB_spec (x y : String) (h : segCompatB x y = true) :
    pathSegs x = pathSegs y ∨
      (¬ pathSegs x <+: pathSegs y ∧ ¬ pathSegs y <+: pathSegs x) := by
  by_cases heq : pathSegs x = pathSegs y
  · exact Or.inl heq
  · unfold segCompatB at h
    rw [decide_eq_false heq] at h
    refine Or.inr ⟨fun hp => ?_, fun hp => ?_⟩
    · rw [List.isPrefixOf_iff_prefix.mpr hp] at h
      simp at h
    · rw [List.isPrefixOf_iff_prefix.mpr hp] at h
      simp at h

/-- Inserting the same path list into equivalent tries preserves
equivalence. -/
theorem foldl_insert_equiv (l : List String) :
    ∀ cs1 cs2 : TrieL, TrieLEquiv cs1 cs2 →
    TrieLEquiv (l.foldl (fun cs full => insertSegs cs "" (pathSegs full)) cs1)
      (l.foldl (fun cs full => insertSegs cs "" (pathSegs full)) cs2) := by
  induction l with
  | nil => intro cs1 cs2 h; exact h
  | cons p rest ih =>
    intro cs1 cs2 h
    exact ih _ _ (insertSegs_equiv (pathSegs p) "" cs1 cs2 h)

/-- Inserting a permuted path list into equivalent tries yields
equivalent tries, provided the paths are pairwise segment-compatible. -/
theorem foldl_insert_perm (p1 p2 : List String) (hp : p1.Perm p2) :
    (∀ x ∈ p1, ∀ y ∈ p1, pathSegs x = pathSegs y ∨
      (¬ pathSegs x <+: pathSegs y ∧ ¬ pathSegs y <+: pathSegs x)) →
    ∀ cs1 cs2 : TrieL, TrieLEquiv cs1 cs2 →
    TrieLEquiv (p1.foldl (fun cs full => insertSegs cs "" (pathSegs full)) cs1)
      (p2.foldl (fun cs full => insertSegs cs "" (pathSegs full)) cs2) := by
  induction hp with
  | nil => intro _ cs1 cs2 h; exact h
  | cons a hperm ih =>
    intro hc cs1 cs2 h
    exact ih (fun x hx y hy => hc x (List.mem_cons_of_mem a hx) y
      (List.mem_cons_of_mem a hy)) _ _ (insertSegs_equiv (pathSegs a) "" cs1 cs2 h)
  | swap x y l =>
    intro hc cs1 cs2 h
    have e1 : TrieLEquiv (insertSegs (insertSegs cs1 "" (pathSegs y)) "" (pathSegs x))
        (insertSegs (insertSegs cs2 "" (pathSegs y)) "" (pathSegs x)) :=
      insertSegs_equiv (pathSegs x) "" _ _ (insertSegs_equiv (pathSegs y) "" cs1 cs2 h)
    have e2 : TrieLEquiv (insertSegs (insertSegs cs2 "" (pathSegs y)) "" (pathSegs x))
        (insertSegs (insertSegs cs2 "" (pathSegs x)) "" (pathSegs y)) :=
      insertSegs_comm (pathSegs y) (pathSegs x) "" cs2
        (hc y (List.mem_cons_self y (x :: l)) x
          (List.mem_cons_of_mem y (List.mem_cons_self x l)))
    exact foldl_insert_equiv l _ _ (trieLEquiv_trans _ _ _ e1 e2)
  | trans h1 h2 ih1 ih2 =>
    intro hc cs1 cs2 h
    refine trieLEquiv_trans _ _ _ (ih1 hc cs1 cs2 h) (ih2 ?_ _ _ (trieLEquiv_refl cs2))
    intro x hx y hy
    exact hc x (h1.mem_iff.mpr hx) y (h1.mem_iff.mpr hy)

/-- Equivalent well-formed tries convert to the same sorted node list at
every level (strong induction on the record size). -/
theorem toNodes_eq_aux : ∀ N : Nat, ∀ cs1 cs2 : TrieL, sizeOf cs1 ≤ N →
    TrieLEquiv cs1 cs2 → cs1.wfb = true → cs2.wfb = true →
    ∀ lvl, sortNodes (cs1.toNodesRaw lvl) = sortNodes (cs2.toNodesRaw lvl) := by
  intro N
  induction N using Nat.strong_induction_on with
  | _ N ih =>
    intro cs1 cs2 hsz he hw1 hw2 lvl
    have hperm : cs1.names.Perm cs2.names := by
      rcases he with ⟨_, _, hperm, _⟩
      exact hperm
    have hnames : (sortNodes (cs1.toNodesRaw lvl)).map TreeNode.name =
        (sortNodes (cs2.toNodesRaw lvl)).map TreeNode.name := by
      have p1 : ((sortNodes (cs1.toNodesRaw lvl)).map TreeNode.name).Perm cs1.names := by
        have hh := (sortNodes_perm (cs1.toNodesRaw lvl)).map TreeNode.name
        rw [toNodesRaw_names] at hh
        exact hh
      have p2 : ((sortNodes (cs2.toNodesRaw lvl)).map TreeNode.name).Perm cs2.names := by
        have hh := (sortNodes_perm (cs2.toNodesRaw lvl)).map TreeNode.name
        rw [toNodesRaw_names] at hh
        exact hh
      exact strings_sorted_perm_eq _ _ (p1.trans (hperm.trans p2.symm))
        (List.pairwise_map.mpr (sortNodes_sorted _))
        (List.pairwise_map.mpr (sortNodes_sorted _))
    refine nodes_eq_of_names_eq _ _ hnames ?_
    intro a ha b hb hab
    obtain ⟨t1, ht1, rfl⟩ := mem_toNodesRaw cs1 lvl a (mem_sortNodes a _ ha)
    obtain ⟨t2, ht2, rfl⟩ := mem_toNodesRaw cs2 lvl b (mem_sortNodes b _ hb)
    rw [toNode_name, toNode_name] at hab
    have hl1 : cs1.lookup t1.name = some t1 := lookup_of_mem_toList_wfb cs1 t1 hw1 ht1
    have hl2 : cs2.lookup t1.name = some t2 := by
      rw [hab]
      exact lookup_of_mem_toList_wfb cs2 t2 hw2 ht2
    have heq : TrieEquiv t1 t2 := by
      rcases he with ⟨_, _, _, hlook⟩
      exact hlook _ _ _ hl1 hl2
    rcases heq with ⟨n, p, ty, d1, d2, hd⟩
    have hwd1 : d1.wfb = true := wfb_of_mem_toList cs1 _ hw1 ht1
    have hwd2 : d2.wfb = true := wfb_of_mem_toList cs2 _ hw2 ht2
    have hlt : sizeOf d1 < N := by
      have h1 : sizeOf (Trie.mk n p ty d1) < sizeOf cs1 := sizeOf_lt_of_mem_toList cs1 _ ht1
      have h2 : sizeOf d1 < sizeOf (Trie.mk n p ty d1) := by
        simp only [Trie.mk.sizeOf_spec]
        omega
      omega
    have hrec := ih (sizeOf d1) hlt d1 d2 le_rfl hd hwd1 hwd2 (lvl + 1)
    cases ty with
    | file => rfl
    | folder =>
      show TreeNode.mk n p .folder lvl none (some (sortNodes (TrieL.toNodesRaw d1 (lvl + 1)))) =
        TreeNode.mk n p .folder lvl none (some (sortNodes (TrieL.toNodesRaw d2 (lvl + 1))))
      rw [hrec]

/-- The path-based builder is invariant under input permutation when the
paths are pairwise segment-compatible. -/
theorem buildTreeFromFilePaths_perm (p1 p2 : List String) (hp : p1.Perm p2)
    (hc : pairwiseCompatB p1 = true) :
    buildTreeFromFilePaths p1 = buildTreeFromFilePaths p2 := by
  unfold pairwiseCompatB at hc
  have hcP : ∀ x ∈ p1, ∀ y ∈ p1, pathSegs x = pathSegs y ∨
      (¬ pathSegs x <+: pathSegs y ∧ ¬ pathSegs y <+: pathSegs x) := by
    intro x hx y hy
    exact segCompatB_spec x y (List.all_eq_true.mp (List.all_eq_true.mp hc x hx) y hy)
  have hequiv : TrieLEquiv (buildTrie p1) (buildTrie p2) :=
    foldl_insert_perm p1 p2 hp hcP .nil .nil (trieLEquiv_refl .nil)
  unfold buildTreeFromFilePaths
  exact toNodes_eq_aux (sizeOf (buildTrie p1)) _ _ le_rfl hequiv
    (buildTrie_wfb p1) (buildTrie_wfb p2) 0

mutual
/-- Every node the trie conversion produces has its children sorted
lexicographically by name, recursively. -/
theorem trie_toNode_sorted : ∀ (t : Trie) (lvl : Nat), NodeSorted (t.toNode lvl)
  | .mk n p ty cs, lvl => by
    cases ty with
    | file => exact NodeSorted.noChildren n p .file lvl none
    | folder =>
      refine NodeSorted.withChildren n p .folder lvl none _
        (sortNodes_sorted (cs.toNodesRaw (lvl + 1))) ?_
      intro c hc
      exact trieL_toNodesRaw_sorted cs (lvl + 1) c (mem_sortNodes c _ hc)
/-- Every node of a converted children record has sorted children,
recursively. -/
theorem trieL_toNodesRaw_sorted : ∀ (cs : TrieL) (lvl : Nat),
    ∀ x ∈ cs.toNodesRaw lvl, NodeSorted x
  | .nil, _ => by intro x hx; exact absurd hx (List.not_mem_nil x)
  | .cons t rest, lvl => by
    intro x hx
    rcases List.mem_cons.mp hx with rfl | h2
    · exact trie_toNode_sorted t lvl
    · exact trieL_toNodesRaw_sorted rest lvl x h2
end

/-- Claim C3 (amended): when no path's segment sequence is a proper
prefix of another's (the boolean pairwise compatibility test), the
path-based tree builder `buildTreeFromFilePaths` (layout.tsx 118-146)
yields the same tree for every input ordering; unconditionally, the
roots and every node's children are sorted lexicographically by name at
each level; and the two orderings of the two-file example produce the
identical tree with a.py before b.py. -/
theorem c3_sorted_permutation_invariance :
    (∀ p1 p2 : List String, p1.Perm p2 → pairwiseCompatB p1 = true →
      buildTreeFromFilePaths p1 = buildTreeFromFilePaths p2) ∧
    (∀ paths : List String, namesSortedLe (buildTreeFromFilePaths paths) ∧
      ∀ nd ∈ buildTreeFromFilePaths paths, NodeSorted nd) ∧
    buildTreeFromFilePaths ["/src/b.py", "/src/a.py"] =
      buildTreeFromFilePaths ["/src/a.py", "/src/b.py"] ∧
    buildTreeFromFilePaths ["/src/b.py", "/src/a.py"] =
      [TreeNode.mk "src" "/src" .folder 0 none (some
        [TreeNode.mk "a.py" "/src/a.py" .file 1 none none,
         TreeNode.mk "b.py" "/src/b.py" .file 1 none none])] := by
  refine ⟨buildTreeFromFilePaths_perm, fun paths => ⟨?_, ?_⟩, by rfl, by rfl⟩
  · exact sortNodes_sorted _
  · intro nd hnd
    exact trieL_toNodesRaw_sorted (buildTrie paths) 0 nd (mem_sortNodes nd _ hnd)

/-- Witness: the permutation-invariance conjunct applied to the two
orderings of the two-file example, with the compatibility side condition
evaluated on the concrete input. -/
theorem c3_sorted_permutation_invariance_witness :
    buildTreeFromFilePaths ["/src/b.py", "/src/a.py"] =
      buildTreeFromFilePaths ["/src/a.py", "/src/b.py"] :=
  c3_sorted_permutation_invariance.1 ["/src/b.py", "/src/a.py"]
    ["/src/a.py", "/src/b.py"]
    (List.Perm.swap "/src/a.py" "/src/b.py" []) (by rfl)

/-- Counterexample to the unconditional claim: when one path's segment
sequence is a proper prefix of another's, the input ordering changes the
resulting node types, so the builder is not permutation-invariant on all
path lists. -/
theorem c3_counterexample :
    ¬ (∀ p1 p2 : List String, p1.Perm p2 →
      buildTreeFromFilePaths p1 = buildTreeFromFilePaths p2) := by
  intro h
  have hperm := h ["/a", "/a/b"] ["/a/b", "/a"] (List.Perm.swap "/a/b" "/a" [])
  have h1 : (buildTreeFromFilePaths ["/a", "/a/b"]).map TreeNode.ty = [NodeType.file] := by rfl
  have h2 : (buildTreeFromFilePaths ["/a/b", "/a"]).map TreeNode.ty = [NodeType.folder] := by rfl
  rw [hperm, h2] at h1
  exact absurd h1 (by decide)
